import Mathlib

/-!
Verification of the HoagieClub/meal decoding and scraping layer.

This file gives a shallow embedding, in Lean, of the semi-structured text
decoding code of the repository:

* `StudentApp._xml_to_dict`, `StudentApp._remove_xml_namespace`,
  `StudentApp._parse_xml`, `StudentApp.validate_xml`,
  `StudentApp._parse_ical` from `backend/hoagiemeal/api/student_app.py`;
* `Scraper.get_info` and `Scraper.EMPTY_MENU_SCHEMA` from
  `backend/hoagiemeal/api/scraper.py`.

Python dictionaries are modelled as insertion-ordered association lists
(`List (String × Val)`), which matches CPython dict semantics: assignment
to an existing key keeps its position, assignment to a fresh key appends.
Python `None` is the `Val.vnull` constructor.  String helpers model the
ASCII fragment of the Python string methods used by the code
(`str.strip`, `str.isdigit`, `str.isnumeric`, `str.capitalize`,
`str.split`, slicing by character index).
-/

namespace HoagieMeal

/-- A Python value as produced by the decoders and the scraper:
`None`, a string, a list, or an insertion-ordered dict. -/
inductive Val where
  | vnull : Val
  | vstr : String → Val
  | vlist : List Val → Val
  | vdict : List (String × Val) → Val

/-- Dict lookup: the value of the first entry with the given key. -/
def getKey (d : List (String × Val)) (k : String) : Option Val :=
  (d.find? (fun p => p.1 = k)).map (fun p => p.2)

/-- Python dict assignment `d[k] = v`: replace in place when the key is
present (keeping its position), append otherwise. -/
def setKey (d : List (String × Val)) (k : String) (v : Val) : List (String × Val) :=
  if d.any (fun p => p.1 = k) then
    d.map (fun p => if p.1 = k then (k, v) else p)
  else
    d ++ [(k, v)]

/-- `_xml_to_dict`'s merge of one child's `{tag: value}` entry into the
accumulated `child_dict`: a fresh tag is assigned; a repeated tag first
wraps the existing scalar into a one-element list, then appends. -/
def insertChild (d : List (String × Val)) (k : String) (v : Val) :
    List (String × Val) :=
  match getKey d k with
  | none => setKey d k v
  | some (Val.vlist xs) => setKey d k (Val.vlist (xs ++ [v]))
  | some old => setKey d k (Val.vlist [old, v])

/-- The loop of `_xml_to_dict` building `child_dict` from the converted
children, in document order. -/
def mergeChildren (pairs : List (String × Val)) : List (String × Val) :=
  pairs.foldl (fun d p => insertChild d p.1 p.2) []

/-- `dict.update(attrib)`: assign every attribute pair in order. -/
def dictUpdate (d : List (String × Val)) : List (String × String) → List (String × Val)
  | [] => d
  | p :: ps => dictUpdate (setKey d p.1 (Val.vstr p.2)) ps

/-- An `xml.etree.ElementTree.Element`: a tag, an attribute dict, an
optional text node, and the list of child elements.  ElementTree stores a
namespaced tag `ns:Foo` (with `ns` declared for URI `u`) as the string
`{u}Foo`. -/
inductive XmlElem where
  | mk : String → List (String × String) → Option String → List XmlElem → XmlElem

def XmlElem.tag : XmlElem → String
  | .mk t _ _ _ => t

def XmlElem.attrib : XmlElem → List (String × String)
  | .mk _ a _ _ => a

def XmlElem.text : XmlElem → Option String
  | .mk _ _ x _ => x

def XmlElem.children : XmlElem → List XmlElem
  | .mk _ _ _ cs => cs

/-- Python `str.strip()` (ASCII whitespace). -/
def pyStrip (s : String) : String :=
  String.mk (((s.data.dropWhile Char.isWhitespace).reverse.dropWhile
    Char.isWhitespace).reverse)

/-- The Python condition `element.text and element.text.strip()` followed
by the use of `element.text.strip()`: the trimmed text, empty when the
text node is absent. -/
def optTrim : Option String → String
  | none => ""
  | some t => pyStrip t

mutual

/-- The value `_xml_to_dict(element)[element.tag]`: `_xml_to_dict` itself
always returns the singleton dict `{element.tag: convElem element}`.
An element with neither attributes nor children collapses to its trimmed
text (or Python `None` when there is no non-whitespace text); otherwise
the converted children are merged tag-by-tag, the attribute pairs are
assigned over them, and a non-empty trimmed text is assigned last under
the key `"text"`. -/
def convElem : XmlElem → Val
  | .mk _ attrib text children =>
    let stext := optTrim text
    if children.isEmpty ∧ attrib.isEmpty then
      if stext ≠ "" then Val.vstr stext else Val.vnull
    else
      let base := if children.isEmpty then [] else mergeChildren (convChildren children)
      let withAttrs := dictUpdate base attrib
      Val.vdict (if stext ≠ "" then setKey withAttrs "text" (Val.vstr stext) else withAttrs)

/-- `map(self._xml_to_dict, children)` flattened to the `(tag, value)`
entries iterated by the merge loop (each child's dict is the singleton
`{child.tag: value}`). -/
def convChildren : List XmlElem → List (String × Val)
  | [] => []
  | c :: cs => (c.tag, convElem c) :: convChildren cs

end

/-- `_xml_to_dict(element)`: the singleton dict `{element.tag: value}`. -/
def xml_to_dict (e : XmlElem) : Val :=
  Val.vdict [(e.tag, convElem e)]

/-- Everything after the first `'}'` of a character list. -/
def afterBrace : List Char → List Char
  | [] => []
  | c :: cs => if c = '}' then cs else afterBrace cs

/-- The per-tag action of `_remove_xml_namespace`:
`element.tag.split("}", 1)[1]` when `"}" in element.tag`, the tag
unchanged otherwise. -/
def stripNs (tag : String) : String :=
  if tag.data.contains '}' then String.mk (afterBrace tag.data) else tag

mutual

/-- `_remove_xml_namespace(document)`: rewrite the tag of every element
reached by `document.iter()` (the element itself and all descendants)
with `stripNs`. -/
def removeNs : XmlElem → XmlElem
  | .mk t a x cs => .mk (stripNs t) a x (removeNsAll cs)

def removeNsAll : List XmlElem → List XmlElem
  | [] => []
  | c :: cs => removeNs c :: removeNsAll cs

end

mutual

/-- All tags of the tree, the element's own first (document order). -/
def tagsOf : XmlElem → List String
  | .mk t _ _ cs => t :: tagsOfAll cs

def tagsOfAll : List XmlElem → List String
  | [] => []
  | c :: cs => tagsOf c ++ tagsOfAll cs

end

/-- `_parse_xml(xml)`: `ET.fromstring` is the upstream XML parser; its
outcome (a parse error for input that is not well-formed XML, the root
element otherwise) is the input of the embedding.  On a parse error the
code raises `ValueError`; otherwise it strips namespaces and converts the
tree, parsing the input exactly once. -/
def parse_xml (fromstring : Except String XmlElem) : Except String Val :=
  match fromstring with
  | .error e => .error ("Failed to parse XML response: " ++ e)
  | .ok root => .ok (xml_to_dict (removeNs root))

/-- A value that is not a Python list (`isinstance(_, list)` is false). -/
def notList (v : Val) : Prop :=
  ∀ xs : List Val, v ≠ Val.vlist xs

/-- The values that the merge loop gathers at key `k`, in document
order. -/
def collectVals (pairs : List (String × Val)) (k : String) : List Val :=
  (pairs.filter (fun p => p.1 = k)).map (fun p => p.2)

/-- What the merge loop leaves at a key, as a function of what the
accumulator already held and of the values arriving at that key. -/
def mergeResult (acc : Option Val) (vs : List Val) : Option Val :=
  match vs with
  | [] => acc
  | v :: ws =>
    match acc with
    | none =>
      match ws with
      | [] => some v
      | _ :: _ => some (Val.vlist (v :: ws))
    | some (Val.vlist xs) => some (Val.vlist (xs ++ v :: ws))
    | some Val.vnull => some (Val.vlist (Val.vnull :: v :: ws))
    | some (Val.vstr s) => some (Val.vlist (Val.vstr s :: v :: ws))
    | some (Val.vdict dd) => some (Val.vlist (Val.vdict dd :: v :: ws))

/-- Outcome of a call into the `xmlschema` library: success, an
`XMLSchemaValidationError`, or some other exception such as the
`XMLSchemaParseError` raised for a malformed schema document (per the
library's documentation `XMLSchemaParseError` is not a subclass of
`XMLSchemaValidationError`). -/
inductive XmlSchemaOutcome where
  | ok : XmlSchemaOutcome
  | validationError : String → XmlSchemaOutcome
  | parseError : String → XmlSchemaOutcome

/-- `validate_xml(xml_str, xsd_str)`: the outcomes of the two library
calls — `xmlschema.XMLSchema(xsd_str)` construction and
`schema.validate(xml_str)` — are the inputs of the embedding (the library
lives outside the repository).  The `try` block around both calls catches
only `XMLSchemaValidationError` (returning `False`); any other exception
propagates to the caller, and validation runs only when construction
succeeded. -/
def validate_xml (build : XmlSchemaOutcome) (validate : XmlSchemaOutcome) :
    Except String Bool :=
  match build with
  | .validationError _ => .ok false
  | .parseError msg => .error msg
  | .ok =>
    match validate with
    | .ok => .ok true
    | .validationError _ => .ok false
    | .parseError msg => .error msg

/-- An iCal component as parsed by `icalendar`: component name, property
map, and subcomponents.  Property values are modelled by the payload that
the code reads from them (for date properties, the `.dt` payload). -/
inductive CalComponent where
  | mk : String → List (String × String) → List CalComponent → CalComponent

def CalComponent.name : CalComponent → String
  | .mk n _ _ => n

def CalComponent.props : CalComponent → List (String × String)
  | .mk _ ps _ => ps

def CalComponent.subs : CalComponent → List CalComponent
  | .mk _ _ cs => cs

/-- `component.get(key)`: the property value, or Python `None`. -/
def getProp (c : CalComponent) (k : String) : Option String :=
  (c.props.find? (fun p => p.1 = k)).map (fun p => p.2)

mutual

/-- `component.walk()`: the component followed by the walks of its
subcomponents, depth first, in order. -/
def walk : CalComponent → List CalComponent
  | .mk n ps cs => .mk n ps cs :: walkAll cs

def walkAll : List CalComponent → List CalComponent
  | [] => []
  | c :: cs => walk c ++ walkAll cs

end

/-- The `calendar_info` dict captured from a `VCALENDAR` component. -/
structure CalInfo where
  calname : Option String
  timezone : Option String
  prodid : Option String
  version : Option String
deriving DecidableEq

def calInfoOf (c : CalComponent) : CalInfo :=
  { calname := getProp c "X-WR-CALNAME"
    timezone := getProp c "X-WR-TIMEZONE"
    prodid := getProp c "PRODID"
    version := getProp c "VERSION" }

/-- One event dict appended for a `VEVENT` component
(`summary`/`start`/`end`/`uid`/`description`). -/
structure IcalEvent where
  summary : Option String
  start : String
  dtend : String
  uid : Option String
  description : Option String
deriving DecidableEq

/-- The event dict built for a `VEVENT`: `none` models the
`AttributeError` raised by `component.get("DTSTART").dt` (or `DTEND`)
when the property is absent — `None` has no `.dt`. -/
def mkEventRecord (c : CalComponent) : Option IcalEvent :=
  match getProp c "DTSTART", getProp c "DTEND" with
  | some st, some en =>
    some { summary := getProp c "SUMMARY", start := st, dtend := en,
           uid := getProp c "UID", description := getProp c "DESCRIPTION" }
  | _, _ => none

/-- Result of `_parse_ical`: `calendar_info` (still `none` when no
`VCALENDAR` component was seen, mirroring the initial empty dict) and the
ordered event list. -/
structure IcalResult where
  calendar_info : Option CalInfo
  events : List IcalEvent
deriving DecidableEq

/-- The walk loop of `_parse_ical`: a `VCALENDAR` component (re)assigns
`calendar_info`, a `VEVENT` appends its event dict (raising when
`DTSTART`/`DTEND` is absent), anything else is ignored. -/
def parseIcalGo : List CalComponent → Option CalInfo → List IcalEvent →
    Except String IcalResult
  | [], info, evs => .ok ⟨info, evs⟩
  | c :: rest, info, evs =>
    if c.name = "VCALENDAR" then
      parseIcalGo rest (some (calInfoOf c)) evs
    else if c.name = "VEVENT" then
      match mkEventRecord c with
      | some ev => parseIcalGo rest info (evs ++ [ev])
      | none => .error "AttributeError: NoneType has no attribute dt"
    else
      parseIcalGo rest info evs

/-- `_parse_ical(ical_text)` on the calendar returned by
`Calendar.from_ical`. -/
def parse_ical (cal : CalComponent) : Except String IcalResult :=
  parseIcalGo (walk cal) none []

/-! ## The HTML nutrition scraper (`Scraper.get_info`) -/

/-- Python `any(chr.isdigit() for chr in s)` (ASCII digits). -/
def containsDigit (s : String) : Bool := s.data.any Char.isDigit

/-- Python `str.isnumeric()` restricted to ASCII text, where the numeric
characters are exactly the digits: true iff the string is non-empty and
all characters are digits. -/
def pyIsNumericAscii (s : String) : Bool :=
  !s.data.isEmpty && s.data.all Char.isDigit

/-- Python `str.capitalize()`: first character upper-cased, the rest
lower-cased. -/
def pyCapitalize (s : String) : String :=
  match s.data with
  | [] => ""
  | c :: cs => String.mk (c.toUpper :: cs.map Char.toLower)

/-- Python slicing `s[n:]` (by character index). -/
def pyDrop (s : String) (n : Nat) : String := String.mk (s.data.drop n)

/-- Python `len(s)` (in characters). -/
def pyLen (s : String) : Nat := s.data.length

/-- Python `s.split(",")` on a character list: `[]` never occurs, the
empty string splits to `[""]`. -/
def splitCommaList : List Char → List (List Char)
  | [] => [[]]
  | c :: cs =>
    if c = ',' then [] :: splitCommaList cs
    else
      match splitCommaList cs with
      | [] => [[c]]
      | g :: gs => (c :: g) :: gs

/-- Python `s.split(",")`. -/
def pySplitComma (s : String) : List String :=
  (splitCommaList s.data).map String.mk

/-- Python `s.startswith(p)`. -/
def pyStartsWith (s p : String) : Bool := p.data.isPrefixOf s.data

/-- The scraper's keep-only-if-it-contains-a-digit filter:
`text if any(chr.isdigit() for chr in text) else ""`. -/
def keepDigits (s : String) : String := if containsDigit s then s else ""

/-- The query results that `get_info` reads from the parsed document,
each list in document order: texts of the elements with class
`labelingredientsvalue` (`INGREDIENTS_CLASS`), class
`labelallergensvalue` (`ALLERGENS_CLASS`), the `h2` elements
(`NAME_QUERY`), the elements with id `facts2` (`CALORIES_SIZE_ID`), the
elements with id `facts4` (`NUTRITION_ID`), and, for every `li` element,
the text of its first descendant `span` (`none` when the `li` has no
`span`, so that `find("span").get_text()` raises). -/
structure Soup where
  ingredientsEls : List String
  allergensEls : List String
  h2Els : List String
  facts2Els : List String
  facts4Els : List String
  liSpanEls : List (Option String)

/-- `Scraper.EMPTY_MENU_SCHEMA`. -/
def EMPTY_MENU_SCHEMA : Val :=
  Val.vdict [
    ("Name", Val.vstr ""),
    ("Serving Size", Val.vstr ""),
    ("Calories", Val.vstr ""),
    ("Calories from Fat", Val.vstr ""),
    ("Ingredients", Val.vlist []),
    ("Allergens", Val.vlist []),
    ("Fat", Val.vdict [
      ("Total Fat", Val.vdict [("Amount", Val.vstr ""), ("Daily Value", Val.vstr "")]),
      ("Saturated Fat", Val.vdict [("Amount", Val.vstr ""), ("Daily Value", Val.vstr "")]),
      ("Trans Fat", Val.vdict [("Amount", Val.vstr ""), ("Daily Value", Val.vstr "")])]),
    ("Cholesterol", Val.vdict [("Amount", Val.vstr ""), ("Daily Value", Val.vstr "")]),
    ("Sodium", Val.vdict [("Amount", Val.vstr ""), ("Daily Value", Val.vstr "")]),
    ("Carbohydrates", Val.vdict [
      ("Total Carbohydrates", Val.vdict [("Amount", Val.vstr ""), ("Daily Value", Val.vstr "")]),
      ("Dietary Fiber", Val.vdict [("Amount", Val.vstr ""), ("Daily Value", Val.vstr "")]),
      ("Sugar", Val.vdict [("Amount", Val.vstr ""), ("Daily Value", Val.vstr "")])]),
    ("Protein", Val.vdict [("Amount", Val.vstr ""), ("Daily Value", Val.vstr "")]),
    ("Vitamins", Val.vdict [
      ("Vitamin D", Val.vdict [("Amount", Val.vstr ""), ("Daily Value", Val.vstr "")]),
      ("Calcium", Val.vdict [("Amount", Val.vstr ""), ("Daily Value", Val.vstr "")]),
      ("Iron", Val.vdict [("Amount", Val.vstr ""), ("Daily Value", Val.vstr "")]),
      ("Potassium", Val.vdict [("Amount", Val.vstr ""), ("Daily Value", Val.vstr "")])])]

/-- Python nested dict assignment `response[k1][...][kn] = x`: replace
the value at the path.  In `get_info` every assigned path already exists
in the deep copy of `EMPTY_MENU_SCHEMA`, so the missing-key branches
(which leave the value unchanged here, where Python would raise) are
never taken. -/
def setPath (r : Val) (path : List String) (x : Val) : Val :=
  match path with
  | [] => r
  | [k] =>
    match r with
    | Val.vdict d => Val.vdict (setKey d k x)
    | v => v
  | k :: q1 :: qrest =>
    match r with
    | Val.vdict d =>
      Val.vdict (d.map (fun p => if p.1 = k then (k, setPath p.2 (q1 :: qrest) x) else p))
    | v => v

/-- Nested dict lookup along a key path. -/
def getPath (r : Val) (path : List String) : Option Val :=
  match path with
  | [] => some r
  | k :: rest =>
    match r with
    | Val.vdict d =>
      (match getKey d k with
       | some v => getPath v rest
       | none => none)
    | _ => none

/-- Run a sequence of path assignments in order. -/
def applyWrites (r : Val) (ws : List (List String × Val)) : Val :=
  ws.foldl (fun r w => setPath r w.1 w.2) r

/-- One positional extraction statement of a `facts2`/`facts4` block:
`amount i label path` models
`response[path] = keepDigits(elements[i].text.strip()[len(label):].strip())`,
`amountNumeric` additionally resets the value to `""` unless it is
`isnumeric()` (the `Calories`/`Calories from Fat` statements), and
`dv i path` models `response[path] = keepDigits(elements[i].text.strip())`. -/
inductive ScrapeStep where
  | amount : Nat → String → List String → ScrapeStep
  | amountNumeric : Nat → String → List String → ScrapeStep
  | dv : Nat → List String → ScrapeStep

/-- The path a step assigns to. -/
def ScrapeStep.path : ScrapeStep → List String
  | .amount _ _ p => p
  | .amountNumeric _ _ p => p
  | .dv _ p => p

/-- The assignment performed by one step, `none` when `elements[i]`
raises `IndexError`. -/
def stepWrite (els : List String) : ScrapeStep → Option (List String × Val)
  | .amount i label path =>
    (els.get? i).map (fun t =>
      (path, Val.vstr (keepDigits (pyStrip (pyDrop (pyStrip t) (pyLen label))))))
  | .amountNumeric i label path =>
    (els.get? i).map (fun t =>
      let v0 := pyStrip (pyDrop (pyStrip t) (pyLen label))
      (path, Val.vstr (keepDigits (if pyIsNumericAscii v0 then v0 else ""))))
  | .dv i path =>
    (els.get? i).map (fun t => (path, Val.vstr (keepDigits (pyStrip t))))

/-- The assignments a `try` block of positional statements performs: an
exception (a missing index) truncates the sequence at the failing
statement, and the block's earlier assignments stand. -/
def stepsWrites (els : List String) : List ScrapeStep → List (List String × Val)
  | [] => []
  | s :: rest =>
    match stepWrite els s with
    | none => []
    | some w => w :: stepsWrites els rest

/-- The `facts2` block: serving size, calories, calories from fat, taken
from `soup.find_all(id="facts2")` at indices 0, 1, 2. -/
def facts2Steps : List ScrapeStep :=
  [ ScrapeStep.amount 0 "Serving Size" ["Serving Size"],
    ScrapeStep.amountNumeric 1 "Calories" ["Calories"],
    ScrapeStep.amountNumeric 2 "Calories from Fat" ["Calories from Fat"] ]

/-- The `facts4` block: the eighteen amount/daily-value statements in
their hard-coded positional order (indices 0..17). -/
def facts4Steps : List ScrapeStep :=
  [ ScrapeStep.amount 0 "Total Fat" ["Fat", "Total Fat", "Amount"],
    ScrapeStep.dv 1 ["Fat", "Total Fat", "Daily Value"],
    ScrapeStep.amount 2 "Tot. Carb." ["Carbohydrates", "Total Carbohydrates", "Amount"],
    ScrapeStep.dv 3 ["Carbohydrates", "Total Carbohydrates", "Daily Value"],
    ScrapeStep.amount 4 "Sat. Fat" ["Fat", "Saturated Fat", "Amount"],
    ScrapeStep.dv 5 ["Fat", "Saturated Fat", "Daily Value"],
    ScrapeStep.amount 6 "Dietary Fiber" ["Carbohydrates", "Dietary Fiber", "Amount"],
    ScrapeStep.dv 7 ["Carbohydrates", "Dietary Fiber", "Daily Value"],
    ScrapeStep.amount 8 "Trans Fat" ["Fat", "Trans Fat", "Amount"],
    ScrapeStep.dv 9 ["Fat", "Trans Fat", "Daily Value"],
    ScrapeStep.amount 10 "Sugars" ["Carbohydrates", "Sugar", "Amount"],
    ScrapeStep.dv 11 ["Carbohydrates", "Sugar", "Daily Value"],
    ScrapeStep.amount 12 "Cholesterol" ["Cholesterol", "Amount"],
    ScrapeStep.dv 13 ["Cholesterol", "Daily Value"],
    ScrapeStep.amount 14 "Protein" ["Protein", "Amount"],
    ScrapeStep.dv 15 ["Protein", "Daily Value"],
    ScrapeStep.amount 16 "Sodium" ["Sodium", "Amount"],
    ScrapeStep.dv 17 ["Sodium", "Daily Value"] ]

/-- The ingredients block: `find_all(class_=INGREDIENTS_CLASS)[0]`, split
on commas, each fragment stripped and capitalized (`ingredients_list or
[]` maps an empty list to `[]`). -/
def ingredientsWrites (els : List String) : List (List String × Val) :=
  match els.get? 0 with
  | none => []
  | some txt =>
    let items := (pySplitComma txt).map (fun s => Val.vstr (pyCapitalize (pyStrip s)))
    [(["Ingredients"], Val.vlist (if items.isEmpty then [] else items))]

/-- The allergens block: `find_all(class_=ALLERGENS_CLASS)[0]`, stripped,
a leading `"Ingredients include"` removed when present, split on commas,
fragments stripped and capitalized. -/
def allergensWrites (els : List String) : List (List String × Val) :=
  match els.get? 0 with
  | none => []
  | some txt =>
    let t := pyStrip txt
    let t2 := if pyStartsWith t "Ingredients include"
      then pyDrop t (pyLen "Ingredients include") else t
    let items := (pySplitComma t2).map (fun s => Val.vstr (pyCapitalize (pyStrip s)))
    [(["Allergens"], Val.vlist (if items.isEmpty then [] else items))]

/-- The name block: the stripped text of the first `h2` (`name_text or
""` is the identity because an empty string is already `""`). -/
def nameWrites (els : List String) : List (List String × Val) :=
  match els.get? 0 with
  | none => []
  | some txt => [(["Name"], Val.vstr (pyStrip txt))]

/-- The four vitamin/mineral daily values, from the first four `li`
elements' nested `span` texts in that fixed order. -/
def vitaminTargets : List (Nat × List String) :=
  [ (0, ["Vitamins", "Vitamin D", "Daily Value"]),
    (1, ["Vitamins", "Potassium", "Daily Value"]),
    (2, ["Vitamins", "Calcium", "Daily Value"]),
    (3, ["Vitamins", "Iron", "Daily Value"]) ]

/-- The vitamins block: a missing `li` (IndexError) or an `li` without a
`span` (AttributeError on `None.get_text()`) truncates the block. -/
def vitaminWrites (lis : List (Option String)) :
    List (Nat × List String) → List (List String × Val)
  | [] => []
  | (i, p) :: rest =>
    match lis.get? i with
    | some (some t) => (p, Val.vstr (keepDigits (pyStrip t))) :: vitaminWrites lis rest
    | _ => []

/-- All assignments `get_info` performs on the copied schema, in program
order.  No statement of any `try` block reads `response` — every
assigned value is computed from the soup alone — so the method is the
fold of these per-block assignment sequences, each block truncated at
its first failing statement. -/
def allWrites (s : Soup) : List (List String × Val) :=
  ingredientsWrites s.ingredientsEls ++ allergensWrites s.allergensEls ++
  nameWrites s.h2Els ++ stepsWrites s.facts2Els facts2Steps ++
  stepsWrites s.facts4Els facts4Steps ++ vitaminWrites s.liSpanEls vitaminTargets

/-- `Scraper.get_info(soup)`: `none` covers both `soup is None` and a
non-`BeautifulSoup` argument (the `isinstance` guard), returning a deep
copy of the schema (deep copies are value semantics here); otherwise the
block assignments run over a fresh deep copy.  The outer `try/except` is
unreachable: every statement that can raise sits inside a block's own
`try`. -/
def get_info (soup : Option Soup) : Val :=
  match soup with
  | none => EMPTY_MENU_SCHEMA
  | some s => applyWrites EMPTY_MENU_SCHEMA (allWrites s)

/-- `r` is a dict value. -/
def isVdict (r : Val) : Prop := ∃ d, r = Val.vdict d

/-! ### What the blocks write: paths and value shapes -/

/-- A scraper-written value: a string, or a list of strings. -/
def leafStrVal (v : Val) : Prop :=
  (∃ s, v = Val.vstr s) ∨
  (∃ xs, v = Val.vlist xs ∧ ∀ x ∈ xs, ∃ s, x = Val.vstr s)

/-! ### Commuting a top-level assignment past later writes (for the
ingredients-isolation property) -/

/-- `r` is a dict that already holds top-level key `k`. -/
def hasTopKey (r : Val) (k : String) : Prop :=
  ∃ d, r = Val.vdict d ∧ (getKey d k).isSome

/-! ### No `None` ever appears in a scraper result -/

mutual

/-- No `Val.vnull` (Python `None`) occurs anywhere in the value. -/
def noNulls : Val → Bool
  | Val.vnull => false
  | Val.vstr _ => true
  | Val.vlist xs => noNullsList xs
  | Val.vdict d => noNullsEntries d

def noNullsList : List Val → Bool
  | [] => true
  | v :: vs => noNulls v && noNullsList vs

def noNullsEntries : List (String × Val) → Bool
  | [] => true
  | p :: ps => noNulls p.2 && noNullsEntries ps

end

/-! ### The result's nested key structure is exactly the schema's -/

/-- The key tree of a value: dict nodes keep their keys in order, every
non-dict value is a leaf. -/
inductive Shape where
  | leaf : Shape
  | node : List (String × Shape) → Shape

mutual

def shapeOf : Val → Shape
  | Val.vdict d => Shape.node (shapeEntries d)
  | Val.vnull => Shape.leaf
  | Val.vstr _ => Shape.leaf
  | Val.vlist _ => Shape.leaf

def shapeEntries : List (String × Val) → List (String × Shape)
  | [] => []
  | p :: ps => (p.1, shapeOf p.2) :: shapeEntries ps

end

mutual

/-- The value has exactly the given key tree: dicts match node shapes
entry by entry (same keys, same order, no duplicate keys), and leaves
are non-dict values. -/
inductive Conforms : Val → Shape → Prop where
  | leaf (v : Val) (h : ∀ dd, v ≠ Val.vdict dd) : Conforms v Shape.leaf
  | node (d : List (String × Val)) (es : List (String × Shape))
      (hnd : (d.map Prod.fst).Nodup)
      (hc : ConformsEntries d es) : Conforms (Val.vdict d) (Shape.node es)

inductive ConformsEntries : List (String × Val) → List (String × Shape) → Prop where
  | nil : ConformsEntries [] []
  | cons (k : String) (v : Val) (sh : Shape)
      (rest1 : List (String × Val)) (rest2 : List (String × Shape))
      (hv : Conforms v sh) (hrest : ConformsEntries rest1 rest2) :
      ConformsEntries ((k, v) :: rest1) ((k, sh) :: rest2)

end

/-- The path exists in the shape and ends at a leaf. -/
def pathLeaf (S : Shape) : List String → Bool
  | [] => false
  | [k] =>
    match S with
    | Shape.leaf => false
    | Shape.node es =>
      match es.find? (fun p => p.1 = k) with
      | some (_, Shape.leaf) => true
      | _ => false
  | k :: q1 :: qrest =>
    match S with
    | Shape.leaf => false
    | Shape.node es =>
      match es.find? (fun p => p.1 = k) with
      | some (_, sh) => pathLeaf sh (q1 :: qrest)
      | none => false

theorem getKey_nil (k : String) : getKey [] k = none := rfl

theorem getKey_cons (q : String × Val) (d : List (String × Val)) (k : String) :
    getKey (q :: d) k = if q.1 = k then some q.2 else getKey d k := by
  by_cases h : q.1 = k <;> simp [getKey, List.find?_cons, h]

theorem getKey_map_replace (d : List (String × Val)) (k : String) (v : Val) :
    getKey (d.map (fun p => if p.1 = k then (k, v) else p)) k =
      (getKey d k).map (fun _ => v) := by
  induction d with
  | nil => rfl
  | cons q rest ih =>
    by_cases h : q.1 = k
    · simp [getKey_cons, h]
    · simp only [List.map_cons, if_neg h, getKey_cons, if_neg h, ih]

theorem getKey_map_replace_ne (d : List (String × Val)) (k k' : String) (v : Val)
    (h : k' ≠ k) :
    getKey (d.map (fun p => if p.1 = k then (k, v) else p)) k' = getKey d k' := by
  induction d with
  | nil => rfl
  | cons q rest ih =>
    by_cases hq : q.1 = k
    · simp only [List.map_cons, if_pos hq, getKey_cons, if_neg (Ne.symm h),
        if_neg (hq ▸ (Ne.symm h) : ¬ q.1 = k')]
      exact ih
    · simp only [List.map_cons, if_neg hq, getKey_cons, ih]

theorem getKey_append (d l : List (String × Val)) (k : String) :
    getKey (d ++ l) k = match getKey d k with
      | some v => some v
      | none => getKey l k := by
  induction d with
  | nil => simp [getKey_nil]
  | cons q rest ih =>
    by_cases h : q.1 = k
    · simp [getKey_cons, h]
    · simp [getKey_cons, h, ih]

theorem any_key_eq_isSome_getKey (d : List (String × Val)) (k : String) :
    (d.any (fun p => p.1 = k)) = (getKey d k).isSome := by
  induction d with
  | nil => rfl
  | cons q rest ih =>
    by_cases h : q.1 = k
    · simp [getKey_cons, h]
    · simp [getKey_cons, h, ih]

theorem getKey_setKey_self (d : List (String × Val)) (k : String) (v : Val) :
    getKey (setKey d k v) k = some v := by
  unfold setKey
  split
  · rename_i h
    rw [any_key_eq_isSome_getKey] at h
    rw [getKey_map_replace]
    obtain ⟨w, hw⟩ := Option.isSome_iff_exists.mp h
    rw [hw]; rfl
  · rename_i h
    rw [any_key_eq_isSome_getKey] at h
    rw [getKey_append]
    have : getKey d k = none := by
      cases hk : getKey d k
      · rfl
      · exact absurd (by rw [hk]; rfl) h
    rw [this]
    simp [getKey_cons]

theorem getKey_setKey_ne (d : List (String × Val)) (k k' : String) (v : Val)
    (h : k' ≠ k) : getKey (setKey d k v) k' = getKey d k' := by
  unfold setKey
  split
  · exact getKey_map_replace_ne d k k' v h
  · rw [getKey_append]
    cases hk : getKey d k'
    · simp [getKey_cons, getKey_nil, Ne.symm h]
    · rfl

/-- Induction over the element tree. -/
theorem XmlElem.ind_tree (motive : XmlElem → Prop)
    (h : ∀ t a x cs, (∀ c ∈ cs, motive c) → motive (XmlElem.mk t a x cs)) :
    ∀ e, motive e
  | .mk t a x cs =>
    h t a x cs (fun c hc =>
      have : sizeOf c < sizeOf (XmlElem.mk t a x cs) := by
        have := List.sizeOf_lt_of_mem hc
        simp only [XmlElem.mk.sizeOf_spec]
        omega
      XmlElem.ind_tree motive h c)
termination_by e => sizeOf e

theorem convChildren_eq_map (cs : List XmlElem) :
    convChildren cs = cs.map (fun c => (c.tag, convElem c)) := by
  induction cs with
  | nil => rfl
  | cons c rest ih => simp [convChildren, ih]

/-- `_xml_to_dict` never returns a list as an element's converted value:
every branch produces a string, `None`, or a dict. -/
theorem convElem_notList (e : XmlElem) : notList (convElem e) := by
  obtain ⟨t, a, x, cs⟩ := e
  intro xs
  rw [convElem]
  split
  · split <;> intro h <;> cases h
  · intro h; cases h

theorem convChildren_notList (cs : List XmlElem) :
    ∀ p ∈ convChildren cs, notList p.2 := by
  rw [convChildren_eq_map]
  intro p hp
  obtain ⟨c, _, rfl⟩ := List.mem_map.mp hp
  exact convElem_notList c

theorem getKey_insertChild_ne (d : List (String × Val)) (k k' : String) (v : Val)
    (h : k' ≠ k) : getKey (insertChild d k v) k' = getKey d k' := by
  unfold insertChild
  cases hd : getKey d k with
  | none => exact getKey_setKey_ne d k k' v h
  | some w => cases w <;> exact getKey_setKey_ne d k k' _ h

theorem mergeResult_nil (acc : Option Val) : mergeResult acc [] = acc := rfl

theorem getKey_foldl_insertChild (pairs : List (String × Val))
    (d : List (String × Val)) (k : String)
    (hnl : ∀ p ∈ pairs, notList p.2) :
    getKey (pairs.foldl (fun d p => insertChild d p.1 p.2) d) k =
      mergeResult (getKey d k) (collectVals pairs k) := by
  induction pairs generalizing d with
  | nil => simp only [List.foldl_nil, collectVals, List.filter_nil, List.map_nil, mergeResult_nil]
  | cons p rest ih =>
    obtain ⟨k', v⟩ := p
    have hv : notList v := hnl (k', v) (List.mem_cons_self _ _)
    have hrest : ∀ p ∈ rest, notList p.2 :=
      fun p hp => hnl p (List.mem_cons_of_mem _ hp)
    simp only [List.foldl_cons]
    rw [ih _ hrest]
    by_cases hk : k' = k
    · subst hk
      have hcoll : collectVals ((k', v) :: rest) k' = v :: collectVals rest k' := by
        simp [collectVals]
      rw [hcoll]
      unfold insertChild
      cases hd : getKey d k' with
      | none =>
        rw [getKey_setKey_self]
        cases hvs : collectVals rest k' with
        | nil => rfl
        | cons w ws =>
          cases v with
          | vlist xs => exact absurd rfl (hv xs)
          | vnull => rfl
          | vstr s => rfl
          | vdict dd => rfl
      | some w =>
        cases w with
        | vlist xs =>
          rw [getKey_setKey_self]
          cases hvs : collectVals rest k' with
          | nil => rfl
          | cons u us => simp [mergeResult, List.append_assoc]
        | vnull =>
          rw [getKey_setKey_self]
          cases hvs : collectVals rest k' with
          | nil => rfl
          | cons u us => rfl
        | vstr s =>
          rw [getKey_setKey_self]
          cases hvs : collectVals rest k' with
          | nil => rfl
          | cons u us => rfl
        | vdict dd =>
          rw [getKey_setKey_self]
          cases hvs : collectVals rest k' with
          | nil => rfl
          | cons u us => rfl
    · have hcoll : collectVals ((k', v) :: rest) k = collectVals rest k := by
        simp [collectVals, hk]
      rw [hcoll, getKey_insertChild_ne d k' k v (Ne.symm hk)]

theorem getKey_mergeChildren (pairs : List (String × Val)) (k : String)
    (hnl : ∀ p ∈ pairs, notList p.2) :
    getKey (mergeChildren pairs) k = mergeResult none (collectVals pairs k) := by
  unfold mergeChildren
  exact getKey_foldl_insertChild pairs [] k hnl

theorem getKey_dictUpdate_notMem (d : List (String × Val))
    (ps : List (String × String)) (k : String) (h : ∀ p ∈ ps, p.1 ≠ k) :
    getKey (dictUpdate d ps) k = getKey d k := by
  induction ps generalizing d with
  | nil => rfl
  | cons p rest ih =>
    simp only [dictUpdate]
    rw [ih _ (fun q hq => h q (List.mem_cons_of_mem _ hq))]
    exact getKey_setKey_ne d p.1 k _ (Ne.symm (h p (List.mem_cons_self _ _)))

theorem getKey_dictUpdate_mem (d : List (String × Val))
    (ps : List (String × String)) (k : String) (v : String)
    (hmem : (k, v) ∈ ps) (hnd : (ps.map Prod.fst).Nodup) :
    getKey (dictUpdate d ps) k = some (Val.vstr v) := by
  induction ps generalizing d with
  | nil => cases hmem
  | cons p rest ih =>
    simp only [dictUpdate]
    rcases List.mem_cons.mp hmem with h | h
    · have hk1 : p.1 = k := by rw [← h]
      have hnotin : ∀ q ∈ rest, q.1 ≠ k := by
        intro q hq hqk
        have hknotin : p.1 ∉ rest.map Prod.fst := (List.nodup_cons.mp hnd).1
        exact hknotin (hk1 ▸ hqk ▸ List.mem_map_of_mem Prod.fst hq)
      rw [getKey_dictUpdate_notMem _ _ _ hnotin, ← h]
      exact getKey_setKey_self d k (Val.vstr v)
    · exact ih _ h (List.nodup_cons.mp hnd).2

theorem collectVals_convChildren (cs : List XmlElem) (k : String) :
    collectVals (convChildren cs) k =
      (cs.filter (fun c => c.tag = k)).map convElem := by
  rw [convChildren_eq_map]
  unfold collectVals
  induction cs with
  | nil => rfl
  | cons c rest ih =>
    by_cases h : c.tag = k
    · simp [List.filter_cons, h, ih]
    · simp [List.filter_cons, h, ih]

theorem convElem_dict (t : String) (a : List (String × String)) (x : Option String)
    (cs : List XmlElem) (h : ¬(cs.isEmpty ∧ a.isEmpty)) :
    convElem (XmlElem.mk t a x cs) =
      Val.vdict
        (if optTrim x ≠ "" then
          setKey (dictUpdate (if cs.isEmpty then [] else mergeChildren (convChildren cs)) a)
            "text" (Val.vstr (optTrim x))
        else
          dictUpdate (if cs.isEmpty then [] else mergeChildren (convChildren cs)) a) := by
  rw [convElem]
  simp only [if_neg h]

/-- The dict produced for an element with children or attributes agrees,
at any key that is not an attribute key and is not the text key, with the
merged child dict. -/
theorem getKey_convElem_child (t : String) (a : List (String × String))
    (x : Option String) (cs : List XmlElem) (k : String)
    (hne : ¬(cs.isEmpty ∧ a.isEmpty))
    (hattr : ∀ p ∈ a, p.1 ≠ k) (htext : optTrim x ≠ "" → k ≠ "text") :
    ∃ d, convElem (XmlElem.mk t a x cs) = Val.vdict d ∧
      getKey d k =
        getKey (if cs.isEmpty then [] else mergeChildren (convChildren cs)) k := by
  rw [convElem_dict t a x cs hne]
  refine ⟨_, rfl, ?_⟩
  by_cases hx : optTrim x ≠ ""
  · rw [if_pos hx, getKey_setKey_ne _ _ _ _ (htext hx),
      getKey_dictUpdate_notMem _ _ _ hattr]
  · rw [if_neg hx, getKey_dictUpdate_notMem _ _ _ hattr]

/-- C3 (amended): an element with `N > 1` children sharing one tag
decodes, at that tag's key, to the ordered list of the per-child
conversions in document order (with exactly one such child, to that
child's conversion itself) — provided the tag is not also one of the
element's attribute keys and, when the element carries a non-blank text
node, is not the reserved `"text"` key, since attribute and text
assignments run after the merge and overwrite the entry. -/
theorem xml_repeated_children (t : String) (a : List (String × String))
    (x : Option String) (cs : List XmlElem) (k : String)
    (hattr : ∀ p ∈ a, p.1 ≠ k)
    (htext : optTrim x ≠ "" → k ≠ "text") :
    (2 ≤ ((cs.filter (fun c => c.tag = k)).map convElem).length →
      ∃ d, convElem (XmlElem.mk t a x cs) = Val.vdict d ∧
        getKey d k = some (Val.vlist ((cs.filter (fun c => c.tag = k)).map convElem))) ∧
    (∀ v, (cs.filter (fun c => c.tag = k)).map convElem = [v] →
      ∃ d, convElem (XmlElem.mk t a x cs) = Val.vdict d ∧ getKey d k = some v) := by
  have main : ∀ vs, (cs.filter (fun c => c.tag = k)).map convElem = vs → vs ≠ [] →
      ∃ d, convElem (XmlElem.mk t a x cs) = Val.vdict d ∧
        getKey d k = mergeResult none vs := by
    intro vs hvs hne
    have hcs : cs ≠ [] := by
      intro hnil
      subst hnil
      exact hne (by simpa using hvs.symm)
    have hcse : cs.isEmpty = false := by
      cases cs with
      | nil => exact absurd rfl hcs
      | cons c rest => rfl
    obtain ⟨d, hd, hk⟩ := getKey_convElem_child t a x cs k
      (by simp [hcse]) hattr htext
    refine ⟨d, hd, ?_⟩
    rw [hk, if_neg (by simp [hcse]),
      getKey_mergeChildren _ _ (convChildren_notList cs),
      collectVals_convChildren, hvs]
  constructor
  · intro hlen
    obtain ⟨d, hd, hk⟩ := main _ rfl (by
      intro hnil
      rw [hnil] at hlen
      simp at hlen)
    refine ⟨d, hd, ?_⟩
    rw [hk]
    rcases hvs : (cs.filter (fun c => c.tag = k)).map convElem with _ | ⟨v, _ | ⟨w, ws⟩⟩
    · rw [hvs] at hlen; simp at hlen
    · rw [hvs] at hlen; simp at hlen
    · rw [hvs]; rfl
  · intro v hv
    obtain ⟨d, hd, hk⟩ := main [v] hv (by simp)
    exact ⟨d, hd, hk⟩

/-- C3 (counterexample): when the repeated child tag is also an
attribute key, the attribute assignment overwrites the merged list — the
decoded entry is the attribute's scalar, not a length-2 sequence of the
child conversions. -/
theorem xml_repeated_children_counterexample :
    convElem (XmlElem.mk "P" [("a", "x")] none
      [XmlElem.mk "a" [] (some "1") [], XmlElem.mk "a" [] (some "2") []]) =
      Val.vdict [("a", Val.vstr "x")] ∧
    Val.vstr "x" ≠ Val.vlist [convElem (XmlElem.mk "a" [] (some "1") []),
      convElem (XmlElem.mk "a" [] (some "2") [])] :=
  ⟨rfl, fun h => Val.noConfusion h⟩

theorem xml_repeated_children_witness :
    ∃ d, convElem (XmlElem.mk "P" [] none
        [XmlElem.mk "a" [] (some "1") [], XmlElem.mk "a" [] (some "2") []]) = Val.vdict d ∧
      getKey d "a" = some (Val.vlist [Val.vstr "1", Val.vstr "2"]) := by
  obtain ⟨d, hd, hk⟩ := (xml_repeated_children "P" [] none
      [XmlElem.mk "a" [] (some "1") [], XmlElem.mk "a" [] (some "2") []] "a"
      (by simp) (fun h => absurd rfl h)).1 (by rfl)
  exact ⟨d, hd, hk.trans (by rfl)⟩

/-- C5: an element with attributes or children decodes to a dict holding
its attribute pairs, with a non-empty trimmed text node stored under the
reserved `"text"` key exactly then; an element with neither attributes
nor children and a non-empty trimmed text decodes to that text itself. -/
theorem xml_elem_mapping_shape (t : String) (a : List (String × String))
    (x : Option String) (cs : List XmlElem)
    (hnd : (a.map Prod.fst).Nodup) :
    (cs = [] ∧ a = [] ∧ optTrim x ≠ "" →
      convElem (XmlElem.mk t a x cs) = Val.vstr (optTrim x)) ∧
    (cs ≠ [] ∨ a ≠ [] →
      ∃ d, convElem (XmlElem.mk t a x cs) = Val.vdict d ∧
        (optTrim x ≠ "" → getKey d "text" = some (Val.vstr (optTrim x))) ∧
        (optTrim x = "" ∧ (∀ p ∈ a, p.1 ≠ "text") ∧ (∀ c ∈ cs, c.tag ≠ "text") →
          getKey d "text" = none) ∧
        (∀ k v, (k, v) ∈ a → k ≠ "text" → getKey d k = some (Val.vstr v))) := by
  constructor
  · rintro ⟨rfl, rfl, hx⟩
    rw [convElem]
    simp [hx]
  · intro hne
    have hne' : ¬(cs.isEmpty ∧ a.isEmpty) := by
      rcases hne with h | h
      · intro hc
        cases cs with
        | nil => exact h rfl
        | cons c rest => cases hc.1
      · intro hc
        cases a with
        | nil => exact h rfl
        | cons p rest => cases hc.2
    rw [convElem_dict t a x cs hne']
    refine ⟨_, rfl, ?_, ?_, ?_⟩
    · intro hx
      rw [if_pos hx]
      exact getKey_setKey_self _ _ _
    · rintro ⟨hx, hattr, hcs⟩
      rw [if_neg (by simpa using hx)]
      rw [getKey_dictUpdate_notMem _ _ _ hattr]
      by_cases hcse : cs.isEmpty
      · rw [if_pos hcse]; rfl
      · rw [if_neg hcse, getKey_mergeChildren _ _ (convChildren_notList cs),
          collectVals_convChildren]
        have : cs.filter (fun c => c.tag = "text") = [] := by
          rw [List.filter_eq_nil_iff]
          intro c hc
          simpa using hcs c hc
        rw [this]
        rfl
    · intro k v hmem hk
      have hkey : getKey (dictUpdate
          (if cs.isEmpty then [] else mergeChildren (convChildren cs)) a) k
          = some (Val.vstr v) := getKey_dictUpdate_mem _ a k v hmem hnd
      by_cases hx : optTrim x ≠ ""
      · rw [if_pos hx, getKey_setKey_ne _ _ _ _ hk, hkey]
      · rw [if_neg hx, hkey]

theorem xml_elem_mapping_shape_witness :
    convElem (XmlElem.mk "Leaf" [] (some " hi ") []) = Val.vstr "hi" ∧
    (∃ d, convElem (XmlElem.mk "P" [("id", "7")] (some " t ") []) = Val.vdict d ∧
      getKey d "text" = some (Val.vstr "t") ∧ getKey d "id" = some (Val.vstr "7")) := by
  constructor
  · exact (xml_elem_mapping_shape "Leaf" [] (some " hi ") [] (by simp)).1
      ⟨rfl, rfl, by decide⟩
  · obtain ⟨d, hd, htext, _, hattr⟩ :=
      (xml_elem_mapping_shape "P" [("id", "7")] (some " t ") [] (by simp)).2
        (Or.inr (by simp))
    exact ⟨d, hd, htext (by decide),
      hattr "id" "7" (List.mem_singleton.mpr rfl) (by decide)⟩

theorem afterBrace_append (l r : List Char) (h : '}' ∉ l) :
    afterBrace (l ++ '}' :: r) = r := by
  induction l with
  | nil => simp [afterBrace]
  | cons c rest ih =>
    have hc : ¬ c = '}' := fun hc => h (hc ▸ List.mem_cons_self c rest)
    simp only [List.cons_append, afterBrace, if_neg hc]
    exact ih (fun hm => h (List.mem_cons_of_mem c hm))

theorem tagsOfAll_removeNsAll (cs : List XmlElem)
    (ih : ∀ c ∈ cs, tagsOf (removeNs c) = (tagsOf c).map stripNs) :
    tagsOfAll (removeNsAll cs) = (tagsOfAll cs).map stripNs := by
  induction cs with
  | nil => rfl
  | cons c rest ihl =>
    simp only [removeNsAll, tagsOfAll, List.map_append]
    rw [ih c (List.mem_cons_self _ _),
      ihl (fun c hc => ih c (List.mem_cons_of_mem _ hc))]

/-- C4: `_remove_xml_namespace` rewrites every tag of the tree with
`stripNs`, and `stripNs` maps an ElementTree-expanded namespaced tag
`{uri}local` to the bare local name; the decoded dict is therefore keyed
by the stripped root tag. -/
theorem xml_namespace_stripping :
    (∀ e, tagsOf (removeNs e) = (tagsOf e).map stripNs) ∧
    (∀ uri local_ : String, ¬ uri.data.contains '}' →
      stripNs ("\x7b" ++ uri ++ "\x7d" ++ local_) = local_) ∧
    (∀ e, parse_xml (Except.ok e) =
      Except.ok (Val.vdict [(stripNs e.tag, convElem (removeNs e))])) := by
  refine ⟨?_, ?_, ?_⟩
  · intro e
    induction e using XmlElem.ind_tree with
    | h t a x cs ih =>
      simp only [removeNs, tagsOf, List.map_cons]
      rw [tagsOfAll_removeNsAll cs ih]
  · intro uri local_ h
    have hdata : ("\x7b" ++ uri ++ "\x7d" ++ local_).data =
        '{' :: (uri.data ++ '}' :: local_.data) := by
      simp [String.data_append]
    unfold stripNs
    rw [hdata]
    have hmem : '}' ∉ uri.data := by
      intro hm
      exact h (List.contains_iff_exists_mem_beq.mpr ⟨'}', hm, by decide⟩)
    have hcontains : ('{' :: (uri.data ++ '}' :: local_.data)).contains '}' = true := by
      exact List.contains_iff_exists_mem_beq.mpr ⟨'}', by simp, by decide⟩
    rw [if_pos hcontains]
    show String.mk (afterBrace ('{' :: (uri.data ++ '}' :: local_.data))) = local_
    have : afterBrace ('{' :: (uri.data ++ '}' :: local_.data)) = local_.data := by
      simp only [afterBrace, if_neg (by decide : ¬ '{' = '}')]
      exact afterBrace_append uri.data local_.data hmem
    rw [this]
  · intro e
    cases e with
    | mk t a x cs => rfl

theorem xml_namespace_stripping_witness :
    stripNs ("\x7b" ++ "http://x/y" ++ "\x7d" ++ "Foo") = "Foo" ∧
    tagsOf (removeNs (XmlElem.mk "\x7bhttp://x/y\x7dFoo" [] (some "1") [])) = ["Foo"] := by
  constructor
  · exact xml_namespace_stripping.2.1 "http://x/y" "Foo" (by decide)
  · rw [xml_namespace_stripping.1]
    rfl

/-- C8: `_parse_xml` surfaces a parse failure of `ET.fromstring` as a
`ValueError` and, on a well-formed input, returns the decoded dict of the
namespace-stripped tree; the parser is consumed exactly once, with no
retry. -/
theorem parse_xml_spec :
    (∀ msg, parse_xml (Except.error msg) =
      Except.error ("Failed to parse XML response: " ++ msg)) ∧
    (∀ root, parse_xml (Except.ok root) =
      Except.ok (xml_to_dict (removeNs root))) :=
  ⟨fun _ => rfl, fun _ => rfl⟩

/-- C2 (counterexample evidence): the XML decoder maps an element with no
attributes, no children and no non-whitespace text to Python `None`,
which is neither the empty string nor the empty list. -/
theorem decoded_value_null_counterexample :
    convElem (XmlElem.mk "Location" [] none []) = Val.vnull ∧
    Val.vnull ≠ Val.vstr "" ∧ Val.vnull ≠ Val.vlist [] :=
  ⟨rfl, fun h => Val.noConfusion h, fun h => Val.noConfusion h⟩

/-- C7 (counterexample): a malformed XSD makes schema construction raise
`XMLSchemaParseError`, which `validate_xml` does not catch — the call
raises instead of returning a boolean (neither `True` nor `False`). -/
theorem validate_xml_counterexample :
    validate_xml (XmlSchemaOutcome.parseError "schema parse error")
      XmlSchemaOutcome.ok = Except.error "schema parse error" ∧
    Except.error "schema parse error" ≠ (Except.ok true : Except String Bool) ∧
    Except.error "schema parse error" ≠ (Except.ok false : Except String Bool) :=
  ⟨rfl, fun h => Except.noConfusion h, fun h => Except.noConfusion h⟩

/-- C7 (amended): `validate_xml` returns `True` when both library calls
succeed and `False` on an `XMLSchemaValidationError` from either call;
any other library exception (e.g. a schema parse error) propagates. -/
theorem validate_xml_spec :
    (validate_xml XmlSchemaOutcome.ok XmlSchemaOutcome.ok = Except.ok true) ∧
    (∀ m, validate_xml XmlSchemaOutcome.ok (XmlSchemaOutcome.validationError m)
      = Except.ok false) ∧
    (∀ m v, validate_xml (XmlSchemaOutcome.validationError m) v = Except.ok false) ∧
    (∀ m v, validate_xml (XmlSchemaOutcome.parseError m) v = Except.error m) ∧
    (∀ m, validate_xml XmlSchemaOutcome.ok (XmlSchemaOutcome.parseError m)
      = Except.error m) :=
  ⟨rfl, fun _ => rfl, fun _ _ => rfl, fun _ _ => rfl, fun _ => rfl⟩

/-- C9 (counterexample): a feed whose single `VEVENT` lacks `DTEND`
makes `_parse_ical` raise (`component.get("DTEND").dt` on `None`) instead
of producing an event record. -/
theorem parse_ical_counterexample :
    parse_ical (CalComponent.mk "VCALENDAR" [("PRODID", "x"), ("VERSION", "2.0")]
        [CalComponent.mk "VEVENT"
          [("SUMMARY", "s"), ("DTSTART", "20250101"), ("UID", "u1")] []])
      = Except.error "AttributeError: NoneType has no attribute dt" := rfl

theorem parseIcalGo_no_vcal (l : List CalComponent) (info : Option CalInfo)
    (evs : List IcalEvent)
    (hvc : ∀ c ∈ l, c.name ≠ "VCALENDAR")
    (hev : ∀ c ∈ l, c.name = "VEVENT" → (mkEventRecord c).isSome) :
    parseIcalGo l info evs = Except.ok ⟨info, evs ++ l.filterMap
      (fun c => if c.name = "VEVENT" then mkEventRecord c else none)⟩ := by
  induction l generalizing evs with
  | nil => simp [parseIcalGo]
  | cons c rest ih =>
    have hc : ¬ c.name = "VCALENDAR" := hvc c (List.mem_cons_self _ _)
    have hvc' : ∀ x ∈ rest, x.name ≠ "VCALENDAR" :=
      fun x hx => hvc x (List.mem_cons_of_mem _ hx)
    have hev' : ∀ x ∈ rest, x.name = "VEVENT" → (mkEventRecord x).isSome :=
      fun x hx => hev x (List.mem_cons_of_mem _ hx)
    simp only [parseIcalGo, if_neg hc]
    by_cases hv : c.name = "VEVENT"
    · obtain ⟨ev, hevr⟩ := Option.isSome_iff_exists.mp
        (hev c (List.mem_cons_self _ _) hv)
    -- the event dict is appended, then the loop continues
      rw [if_pos hv, hevr]
      show parseIcalGo rest info (evs ++ [ev]) = _
      rw [ih _ hvc' hev']
      simp [List.filterMap_cons, hv, hevr]
    · rw [if_neg hv, ih _ hvc' hev']
      simp [List.filterMap_cons, hv]

theorem filterMap_event_length (l : List CalComponent)
    (hev : ∀ c ∈ l, c.name = "VEVENT" → (mkEventRecord c).isSome) :
    (l.filterMap (fun c => if c.name = "VEVENT" then mkEventRecord c else none)).length
      = (l.filter (fun c => c.name = "VEVENT")).length := by
  induction l with
  | nil => rfl
  | cons c rest ih =>
    have ih' := ih (fun x hx => hev x (List.mem_cons_of_mem _ hx))
    by_cases hv : c.name = "VEVENT"
    · obtain ⟨ev, hevr⟩ := Option.isSome_iff_exists.mp
        (hev c (List.mem_cons_self _ _) hv)
      simp [List.filterMap_cons, List.filter_cons, hv, hevr, ih']
    · simp [List.filterMap_cons, List.filter_cons, hv, ih']

/-- C9 (amended): on a calendar whose only `VCALENDAR` component is the
root and whose every `VEVENT` carries `DTSTART` and `DTEND`,
`_parse_ical` captures the root's name/timezone/product-id/version into
`calendar_info` and appends exactly one event record per `VEVENT` in walk
order (so a feed with zero `VEVENT` components yields an empty event
sequence and a populated `calendar_info`); other components contribute
nothing. -/
theorem parse_ical_spec (ps : List (String × String)) (subs : List CalComponent)
    (hsubs : ∀ c ∈ walkAll subs, c.name ≠ "VCALENDAR")
    (hev : ∀ c ∈ walkAll subs, c.name = "VEVENT" → (mkEventRecord c).isSome) :
    parse_ical (CalComponent.mk "VCALENDAR" ps subs) =
      Except.ok ⟨some (calInfoOf (CalComponent.mk "VCALENDAR" ps subs)),
        (walkAll subs).filterMap
          (fun c => if c.name = "VEVENT" then mkEventRecord c else none)⟩ ∧
    ((walkAll subs).filterMap
        (fun c => if c.name = "VEVENT" then mkEventRecord c else none)).length =
      ((walkAll subs).filter (fun c => c.name = "VEVENT")).length := by
  constructor
  · unfold parse_ical
    rw [walk]
    simp only [parseIcalGo]
    rw [if_pos (show (CalComponent.mk "VCALENDAR" ps subs).name = "VCALENDAR" from rfl)]
    rw [parseIcalGo_no_vcal _ _ _ hsubs hev]
    simp only [List.nil_append]
  · exact filterMap_event_length _ hev

theorem parse_ical_spec_witness :
    parse_ical (CalComponent.mk "VCALENDAR"
        [("X-WR-CALNAME", "Cal"), ("PRODID", "p"), ("VERSION", "2.0")]
        [CalComponent.mk "VTIMEZONE" [("TZID", "America/New_York")] []])
      = Except.ok ⟨some ⟨some "Cal", none, some "p", some "2.0"⟩, []⟩ := by
  have h := (parse_ical_spec
      [("X-WR-CALNAME", "Cal"), ("PRODID", "p"), ("VERSION", "2.0")]
      [CalComponent.mk "VTIMEZONE" [("TZID", "America/New_York")] []]
      (by decide) (by decide)).1
  exact h.trans (by rfl)

/-! ### Path update/lookup lemmas -/

theorem getKey_map_modify_ne (d : List (String × Val)) (k' k : String)
    (f : Val → Val) (h : k ≠ k') :
    getKey (d.map (fun p => if p.1 = k' then (k', f p.2) else p)) k = getKey d k := by
  induction d with
  | nil => rfl
  | cons q rest ih =>
    by_cases hq : q.1 = k'
    · simp only [List.map_cons, if_pos hq, getKey_cons, if_neg (Ne.symm h),
        if_neg (hq ▸ (Ne.symm h) : ¬ q.1 = k)]
      exact ih
    · simp only [List.map_cons, if_neg hq, getKey_cons, ih]

/-- A write whose path starts under a different top-level key does not
change a lookup below `k`. -/
theorem getPath_setPath_ne_head (r : Val) (q : List String) (y : Val)
    (k : String) (rest : List String) (h : q.head? ≠ some k) :
    getPath (setPath r q y) (k :: rest) = getPath r (k :: rest) := by
  match q, r with
  | [], r => rfl
  | [k'], Val.vdict d =>
    have hk : k ≠ k' := by
      intro he
      exact h (by rw [he]; rfl)
    simp only [setPath, getPath, getKey_setKey_ne d k' k y hk]
  | k' :: q1 :: qrest, Val.vdict d =>
    have hk : k ≠ k' := by
      intro he
      exact h (by rw [he]; rfl)
    simp only [setPath, getPath,
      getKey_map_modify_ne d k' k (fun v => setPath v (q1 :: qrest) y) hk]
  | [_], Val.vnull => rfl
  | _ :: _ :: _, Val.vnull => rfl
  | [_], Val.vstr s => rfl
  | _ :: _ :: _, Val.vstr s => rfl
  | [_], Val.vlist xs => rfl
  | _ :: _ :: _, Val.vlist xs => rfl

theorem getPath_applyWrites_ne_head (ws : List (List String × Val)) (r : Val)
    (k : String) (rest : List String)
    (h : ∀ w ∈ ws, w.1.head? ≠ some k) :
    getPath (applyWrites r ws) (k :: rest) = getPath r (k :: rest) := by
  induction ws generalizing r with
  | nil => rfl
  | cons w tail ih =>
    show getPath (applyWrites (setPath r w.1 w.2) tail) (k :: rest) = _
    rw [ih _ (fun x hx => h x (List.mem_cons_of_mem _ hx)),
      getPath_setPath_ne_head r w.1 w.2 k rest (h w (List.mem_cons_self _ _))]

theorem isVdict_setPath (r : Val) (q : List String) (y : Val)
    (h : isVdict r) : isVdict (setPath r q y) := by
  obtain ⟨d, rfl⟩ := h
  match q with
  | [] => exact ⟨d, rfl⟩
  | [k] => exact ⟨_, rfl⟩
  | k :: q1 :: qrest => exact ⟨_, rfl⟩

theorem isVdict_applyWrites (ws : List (List String × Val)) (r : Val)
    (h : isVdict r) : isVdict (applyWrites r ws) := by
  induction ws generalizing r with
  | nil => exact h
  | cons w tail ih => exact ih _ (isVdict_setPath r w.1 w.2 h)

theorem getPath_setPath_single_self (r : Val) (k : String) (x : Val)
    (h : isVdict r) : getPath (setPath r [k] x) [k] = some x := by
  obtain ⟨d, rfl⟩ := h
  simp only [setPath, getPath, getKey_setKey_self]

theorem applyWrites_append (r : Val) (a b : List (List String × Val)) :
    applyWrites r (a ++ b) = applyWrites (applyWrites r a) b :=
  List.foldl_append _ _ _ _

theorem stepWrite_eq (els : List String) (st : ScrapeStep)
    (w : List String × Val) (h : stepWrite els st = some w) :
    w.1 = st.path ∧ ∃ s, w.2 = Val.vstr s := by
  cases st with
  | amount i label path =>
    obtain ⟨t, _, rfl⟩ := Option.map_eq_some'.mp h
    exact ⟨rfl, _, rfl⟩
  | amountNumeric i label path =>
    obtain ⟨t, _, rfl⟩ := Option.map_eq_some'.mp h
    exact ⟨rfl, _, rfl⟩
  | dv i path =>
    obtain ⟨t, _, rfl⟩ := Option.map_eq_some'.mp h
    exact ⟨rfl, _, rfl⟩

theorem mem_stepsWrites (els : List String) (steps : List ScrapeStep)
    (w : List String × Val) (h : w ∈ stepsWrites els steps) :
    w.1 ∈ steps.map ScrapeStep.path ∧ ∃ s, w.2 = Val.vstr s := by
  induction steps with
  | nil => cases h
  | cons st rest ih =>
    simp only [stepsWrites] at h
    cases hw : stepWrite els st with
    | none => rw [hw] at h; cases h
    | some w0 =>
      rw [hw] at h
      rcases List.mem_cons.mp h with h | h
      · obtain ⟨hp, hs⟩ := stepWrite_eq els st w0 hw
        subst h
        refine ⟨?_, hs⟩
        rw [List.map_cons, hp]
        exact List.mem_cons_self _ _
      · obtain ⟨hp, hs⟩ := ih h
        exact ⟨List.mem_cons_of_mem _ hp, hs⟩

theorem leafStrVal_vlist_if (xs : List Val) (h : ∀ x ∈ xs, ∃ s, x = Val.vstr s) :
    leafStrVal (Val.vlist (if xs.isEmpty then [] else xs)) := by
  refine Or.inr ⟨_, rfl, ?_⟩
  by_cases he : xs.isEmpty
  · rw [if_pos he]
    intro x hx
    cases hx
  · rw [if_neg he]
    exact h

theorem mem_ingredientsWrites (els : List String) (w : List String × Val)
    (h : w ∈ ingredientsWrites els) : w.1 = ["Ingredients"] ∧ leafStrVal w.2 := by
  unfold ingredientsWrites at h
  cases h0 : els.get? 0 with
  | none => rw [h0] at h; cases h
  | some txt =>
    rw [h0] at h
    rcases List.mem_singleton.mp h with rfl
    refine ⟨rfl, leafStrVal_vlist_if _ ?_⟩
    intro x hx
    obtain ⟨s, _, rfl⟩ := List.mem_map.mp hx
    exact ⟨_, rfl⟩

theorem mem_allergensWrites (els : List String) (w : List String × Val)
    (h : w ∈ allergensWrites els) : w.1 = ["Allergens"] ∧ leafStrVal w.2 := by
  unfold allergensWrites at h
  cases h0 : els.get? 0 with
  | none => rw [h0] at h; cases h
  | some txt =>
    rw [h0] at h
    rcases List.mem_singleton.mp h with rfl
    refine ⟨rfl, leafStrVal_vlist_if _ ?_⟩
    intro x hx
    obtain ⟨s, _, rfl⟩ := List.mem_map.mp hx
    exact ⟨_, rfl⟩

theorem mem_nameWrites (els : List String) (w : List String × Val)
    (h : w ∈ nameWrites els) : w.1 = ["Name"] ∧ leafStrVal w.2 := by
  unfold nameWrites at h
  cases h0 : els.get? 0 with
  | none => rw [h0] at h; cases h
  | some txt =>
    rw [h0] at h
    rcases List.mem_singleton.mp h with rfl
    exact ⟨rfl, Or.inl ⟨_, rfl⟩⟩

theorem mem_vitaminWrites (lis : List (Option String))
    (ts : List (Nat × List String)) (w : List String × Val)
    (h : w ∈ vitaminWrites lis ts) :
    w.1 ∈ ts.map Prod.snd ∧ ∃ s, w.2 = Val.vstr s := by
  induction ts with
  | nil => cases h
  | cons t rest ih =>
    obtain ⟨i, p⟩ := t
    simp only [vitaminWrites] at h
    cases hg : lis.get? i with
    | none => rw [hg] at h; cases h
    | some o =>
      cases o with
      | none => rw [hg] at h; cases h
      | some txt =>
        rw [hg] at h
        rcases List.mem_cons.mp h with h | h
        · subst h
          exact ⟨List.mem_cons_self _ _, _, rfl⟩
        · obtain ⟨hp, hs⟩ := ih h
          exact ⟨List.mem_cons_of_mem _ hp, hs⟩

theorem keepDigits_numeric_filter (c : String) :
    keepDigits (if pyIsNumericAscii c then c else "") =
      if pyIsNumericAscii c then c else "" := by
  by_cases h : pyIsNumericAscii c
  · rw [if_pos h]
    have hcd : containsDigit c = true := by
      unfold pyIsNumericAscii at h
      rw [Bool.and_eq_true] at h
      obtain ⟨hne, hall⟩ := h
      unfold containsDigit
      cases hd : c.data with
      | nil => rw [hd] at hne; simp at hne
      | cons a as =>
        rw [hd] at hall
        simp only [List.all_cons, Bool.and_eq_true] at hall
        simp [hall.1]
    unfold keepDigits
    rw [if_pos hcd]
  · rw [if_neg h]
    rfl

theorem get_info_decompose (s : Soup) :
    get_info (some s) =
      applyWrites (applyWrites (applyWrites
        (applyWrites (applyWrites (applyWrites EMPTY_MENU_SCHEMA
          (ingredientsWrites s.ingredientsEls))
          (allergensWrites s.allergensEls))
          (nameWrites s.h2Els))
          (stepsWrites s.facts2Els facts2Steps))
          (stepsWrites s.facts4Els facts4Steps))
          (vitaminWrites s.liSpanEls vitaminTargets) := by
  show applyWrites EMPTY_MENU_SCHEMA (allWrites s) = _
  unfold allWrites
  rw [applyWrites_append, applyWrites_append, applyWrites_append,
    applyWrites_append, applyWrites_append]

theorem stepsWrites_head_ne (els : List String) (steps : List ScrapeStep) (k : String)
    (hk : some k ∉ (steps.map ScrapeStep.path).map List.head?) :
    ∀ w ∈ stepsWrites els steps, w.1.head? ≠ some k := by
  intro w hw he
  have hm := List.mem_map_of_mem List.head? (mem_stepsWrites els steps w hw).1
  rw [he] at hm
  exact hk hm

theorem vitaminWrites_head_ne (lis : List (Option String)) (k : String)
    (hk : some k ∉ (vitaminTargets.map Prod.snd).map List.head?) :
    ∀ w ∈ vitaminWrites lis vitaminTargets, w.1.head? ≠ some k := by
  intro w hw he
  have hm := List.mem_map_of_mem List.head?
    (mem_vitaminWrites lis vitaminTargets w hw).1
  rw [he] at hm
  exact hk hm

theorem getPath_f2_writes (base : Val) (hb : isVdict base) (V0 V1 V2 : Val) :
    getPath (applyWrites base
      [(["Serving Size"], V0), (["Calories"], V1), (["Calories from Fat"], V2)])
      ["Serving Size"] = some V0 ∧
    getPath (applyWrites base
      [(["Serving Size"], V0), (["Calories"], V1), (["Calories from Fat"], V2)])
      ["Calories"] = some V1 ∧
    getPath (applyWrites base
      [(["Serving Size"], V0), (["Calories"], V1), (["Calories from Fat"], V2)])
      ["Calories from Fat"] = some V2 := by
  have e : applyWrites base
      [(["Serving Size"], V0), (["Calories"], V1), (["Calories from Fat"], V2)] =
      setPath (setPath (setPath base ["Serving Size"] V0) ["Calories"] V1)
        ["Calories from Fat"] V2 := rfl
  rw [e]
  refine ⟨?_, ?_, ?_⟩
  · rw [getPath_setPath_ne_head _ ["Calories from Fat"] _ "Serving Size" [] (by decide),
      getPath_setPath_ne_head _ ["Calories"] _ "Serving Size" [] (by decide),
      getPath_setPath_single_self _ _ _ hb]
  · rw [getPath_setPath_ne_head _ ["Calories from Fat"] _ "Calories" [] (by decide),
      getPath_setPath_single_self _ _ _ (isVdict_setPath _ _ _ hb)]
  · rw [getPath_setPath_single_self _ _ _
      (isVdict_setPath _ _ _ (isVdict_setPath _ _ _ hb))]

/-- C6 (amended): from the first three `facts2` elements in document
order, with the known label prefix sliced off and whitespace stripped:
the serving size is kept verbatim exactly when it contains a digit (else
empty), while calories and calories-from-fat are kept exactly when the
stripped string is `isnumeric()` — entirely numeric and non-empty — and
reset to the empty string otherwise. -/
theorem scraper_facts2_values (s : Soup) (t0 t1 t2 : String) (rest : List String)
    (h : s.facts2Els = t0 :: t1 :: t2 :: rest) :
    getPath (get_info (some s)) ["Serving Size"] =
      some (Val.vstr (keepDigits (pyStrip (pyDrop (pyStrip t0) (pyLen "Serving Size"))))) ∧
    getPath (get_info (some s)) ["Calories"] =
      some (Val.vstr
        (if pyIsNumericAscii (pyStrip (pyDrop (pyStrip t1) (pyLen "Calories")))
         then pyStrip (pyDrop (pyStrip t1) (pyLen "Calories")) else "")) ∧
    getPath (get_info (some s)) ["Calories from Fat"] =
      some (Val.vstr
        (if pyIsNumericAscii (pyStrip (pyDrop (pyStrip t2) (pyLen "Calories from Fat")))
         then pyStrip (pyDrop (pyStrip t2) (pyLen "Calories from Fat")) else "")) := by
  have hbase : isVdict (applyWrites (applyWrites (applyWrites EMPTY_MENU_SCHEMA
      (ingredientsWrites s.ingredientsEls)) (allergensWrites s.allergensEls))
      (nameWrites s.h2Els)) :=
    isVdict_applyWrites _ _ (isVdict_applyWrites _ _
      (isVdict_applyWrites _ _ ⟨_, rfl⟩))
  have hf2 : stepsWrites s.facts2Els facts2Steps =
      [ (["Serving Size"],
          Val.vstr (keepDigits (pyStrip (pyDrop (pyStrip t0) (pyLen "Serving Size"))))),
        (["Calories"],
          Val.vstr (keepDigits
            (if pyIsNumericAscii (pyStrip (pyDrop (pyStrip t1) (pyLen "Calories")))
             then pyStrip (pyDrop (pyStrip t1) (pyLen "Calories")) else ""))),
        (["Calories from Fat"],
          Val.vstr (keepDigits
            (if pyIsNumericAscii (pyStrip (pyDrop (pyStrip t2) (pyLen "Calories from Fat")))
             then pyStrip (pyDrop (pyStrip t2) (pyLen "Calories from Fat")) else ""))) ] := by
    rw [h]
    rfl
  rw [get_info_decompose s, hf2]
  have h4 : ∀ (k : String), some k ∉ (facts4Steps.map ScrapeStep.path).map List.head? →
      ∀ w ∈ stepsWrites s.facts4Els facts4Steps, w.1.head? ≠ some k :=
    fun k hk => stepsWrites_head_ne s.facts4Els facts4Steps k hk
  have hv : ∀ (k : String), some k ∉ (vitaminTargets.map Prod.snd).map List.head? →
      ∀ w ∈ vitaminWrites s.liSpanEls vitaminTargets, w.1.head? ≠ some k :=
    fun k hk => vitaminWrites_head_ne s.liSpanEls k hk
  refine ⟨?_, ?_, ?_⟩
  · rw [getPath_applyWrites_ne_head _ _ _ _ (hv "Serving Size" (by decide)),
      getPath_applyWrites_ne_head _ _ _ _ (h4 "Serving Size" (by decide))]
    exact (getPath_f2_writes _ hbase _ _ _).1
  · rw [getPath_applyWrites_ne_head _ _ _ _ (hv "Calories" (by decide)),
      getPath_applyWrites_ne_head _ _ _ _ (h4 "Calories" (by decide)),
      (getPath_f2_writes _ hbase _ _ _).2.1, keepDigits_numeric_filter]
  · rw [getPath_applyWrites_ne_head _ _ _ _ (hv "Calories from Fat" (by decide)),
      getPath_applyWrites_ne_head _ _ _ _ (h4 "Calories from Fat" (by decide)),
      (getPath_f2_writes _ hbase _ _ _).2.2, keepDigits_numeric_filter]

theorem scraper_facts2_values_witness :
    getPath (get_info (some
      { ingredientsEls := [], allergensEls := [], h2Els := [],
        facts2Els := ["Serving Size 4 oz", "Calories 100", "Calories from Fat 20"],
        facts4Els := [], liSpanEls := [] })) ["Serving Size"] = some (Val.vstr "4 oz") ∧
    getPath (get_info (some
      { ingredientsEls := [], allergensEls := [], h2Els := [],
        facts2Els := ["Serving Size 4 oz", "Calories 100", "Calories from Fat 20"],
        facts4Els := [], liSpanEls := [] })) ["Calories"] = some (Val.vstr "100") := by
  have h := scraper_facts2_values
    { ingredientsEls := [], allergensEls := [], h2Els := [],
      facts2Els := ["Serving Size 4 oz", "Calories 100", "Calories from Fat 20"],
      facts4Els := [], liSpanEls := [] }
    "Serving Size 4 oz" "Calories 100" "Calories from Fat 20" [] rfl
  exact ⟨h.1.trans (by rfl), h.2.1.trans (by rfl)⟩

/-- C6 (counterexample): the stripped calories text `"100 kcal"`
contains a digit, yet the scraper resets the `Calories` field to the
empty string because the text is not `isnumeric()`. -/
theorem scraper_calories_counterexample :
    pyStrip (pyDrop (pyStrip "Calories 100 kcal") (pyLen "Calories")) = "100 kcal" ∧
    containsDigit "100 kcal" = true ∧
    getPath (get_info (some
      { ingredientsEls := [], allergensEls := [], h2Els := [],
        facts2Els := ["Serving Size 4 oz", "Calories 100 kcal", "Calories from Fat 20"],
        facts4Els := [], liSpanEls := [] })) ["Calories"] = some (Val.vstr "") ∧
    Val.vstr "" ≠ Val.vstr "100 kcal" :=
  ⟨rfl, rfl, rfl, fun h => absurd (Val.vstr.inj h) (by decide)⟩

theorem getKey_map_modify_self (d : List (String × Val)) (k : String)
    (f : Val → Val) :
    getKey (d.map (fun p => if p.1 = k then (k, f p.2) else p)) k =
      (getKey d k).map f := by
  induction d with
  | nil => rfl
  | cons q rest ih =>
    by_cases h : q.1 = k
    · simp [getKey_cons, h]
    · simp only [List.map_cons, if_neg h, getKey_cons, if_neg h, ih]

theorem setKey_of_present (d : List (String × Val)) (k : String) (x : Val)
    (h : (getKey d k).isSome) :
    setKey d k x = d.map (fun p => if p.1 = k then (k, x) else p) := by
  unfold setKey
  rw [if_pos (by rw [any_key_eq_isSome_getKey]; exact h)]

theorem setKey_of_absent (d : List (String × Val)) (k : String) (x : Val)
    (h : getKey d k = none) :
    setKey d k x = d ++ [(k, x)] := by
  unfold setKey
  rw [if_neg (by rw [any_key_eq_isSome_getKey, h]; simp)]

theorem getKey_none_forall (d : List (String × Val)) (k : String)
    (h : getKey d k = none) : ∀ p ∈ d, p.1 ≠ k := by
  induction d with
  | nil => intro p hp; cases hp
  | cons q rest ih =>
    rw [getKey_cons] at h
    by_cases hq : q.1 = k
    · rw [if_pos hq] at h; cases h
    · rw [if_neg hq] at h
      intro p hp
      rcases List.mem_cons.mp hp with rfl | hp
      · exact hq
      · exact ih h p hp

theorem map_if_eq_self (d : List (String × Val)) (k : String) (x : Val)
    (h : ∀ p ∈ d, p.1 ≠ k) :
    d.map (fun p => if p.1 = k then (k, x) else p) = d := by
  induction d with
  | nil => rfl
  | cons q rest ih =>
    rw [List.map_cons, if_neg (h q (List.mem_cons_self _ _)),
      ih (fun p hp => h p (List.mem_cons_of_mem _ hp))]

theorem modify_comm (k k' : String) (x : Val) (g : String × Val → Val)
    (hne : k ≠ k') (p : String × Val) :
    (fun p : String × Val => if p.1 = k then (k, x) else p)
      ((fun p : String × Val => if p.1 = k' then (k', g p) else p) p) =
    (fun p : String × Val => if p.1 = k' then (k', g p) else p)
      ((fun p : String × Val => if p.1 = k then (k, x) else p) p) := by
  by_cases h1 : p.1 = k'
  · have h2 : ¬p.1 = k := by rw [h1]; exact Ne.symm hne
    simp only [if_pos h1, if_neg h2]
    rw [if_neg (show ¬((k', g p).1 = k) from Ne.symm hne)]
  · by_cases h2 : p.1 = k
    · simp only [if_neg h1, if_pos h2]
      rw [if_neg (show ¬((k, x).1 = k') from hne)]
    · simp only [if_neg h1, if_neg h2]

theorem setKey_comm_present (d : List (String × Val)) (k k' : String)
    (x y : Val) (hk : (getKey d k).isSome) (hne : k ≠ k') :
    setKey (setKey d k' y) k x = setKey (setKey d k x) k' y := by
  cases hk' : getKey d k' with
  | some w =>
    have hk'p : (getKey d k').isSome := by rw [hk']; rfl
    rw [setKey_of_present d k' y hk'p]
    rw [setKey_of_present _ k x (by
      rw [getKey_map_modify_ne d k' k (fun _ => y) hne]; exact hk)]
    rw [setKey_of_present d k x hk]
    rw [setKey_of_present _ k' y (by
      rw [getKey_map_modify_ne d k k' (fun _ => x) (Ne.symm hne)]; exact hk'p)]
    rw [List.map_map, List.map_map]
    congr 1
    funext p
    simp only [Function.comp]
    exact modify_comm k k' x (fun _ => y) hne p
  | none =>
    rw [setKey_of_absent d k' y hk']
    rw [setKey_of_present _ k x (by
      rw [getKey_append]
      cases hg : getKey d k with
      | none => rw [hg] at hk; cases hk
      | some w => rfl)]
    rw [setKey_of_present d k x hk]
    rw [setKey_of_absent _ k' y (by
      rw [getKey_map_modify_ne d k k' (fun _ => x) (Ne.symm hne)]
      exact hk')]
    rw [List.map_append]
    congr 1
    simp [Ne.symm hne]

theorem setPath_top_comm (r : Val) (q : List String) (y : Val) (k : String)
    (x : Val) (hk : hasTopKey r k) (hq : q.head? ≠ some k) :
    setPath (setPath r q y) [k] x = setPath (setPath r [k] x) q y := by
  obtain ⟨d, rfl, hsome⟩ := hk
  match q with
  | [] => rfl
  | [k'] =>
    have hne : k ≠ k' := by
      intro he
      exact hq (by rw [he]; rfl)
    show Val.vdict (setKey (setKey d k' y) k x) = Val.vdict (setKey (setKey d k x) k' y)
    rw [setKey_comm_present d k k' x y hsome hne]
  | k' :: q1 :: qrest =>
    have hne : k ≠ k' := by
      intro he
      exact hq (by rw [he]; rfl)
    show Val.vdict (setKey (d.map (fun p =>
        if p.1 = k' then (k', setPath p.2 (q1 :: qrest) y) else p)) k x) =
      Val.vdict ((setKey d k x).map (fun p =>
        if p.1 = k' then (k', setPath p.2 (q1 :: qrest) y) else p))
    rw [setKey_of_present _ k x (by
      rw [getKey_map_modify_ne d k' k (fun v => setPath v (q1 :: qrest) y) hne]
      exact hsome)]
    rw [setKey_of_present d k x hsome]
    rw [List.map_map, List.map_map]
    have hfg : ((fun p : String × Val => if p.1 = k then (k, x) else p) ∘
        (fun p : String × Val => if p.1 = k' then (k', setPath p.2 (q1 :: qrest) y) else p)) =
        ((fun p : String × Val => if p.1 = k' then (k', setPath p.2 (q1 :: qrest) y) else p) ∘
        (fun p : String × Val => if p.1 = k then (k, x) else p)) := by
      funext p
      simp only [Function.comp]
      exact modify_comm k k' x (fun p => setPath p.2 (q1 :: qrest) y) hne p
    rw [hfg]

theorem hasTopKey_setPath (r : Val) (q : List String) (y : Val) (k : String)
    (h : hasTopKey r k) : hasTopKey (setPath r q y) k := by
  obtain ⟨d, rfl, hsome⟩ := h
  match q with
  | [] => exact ⟨d, rfl, hsome⟩
  | [k'] =>
    refine ⟨_, rfl, ?_⟩
    by_cases hne : k = k'
    · subst hne
      rw [getKey_setKey_self]
      rfl
    · rw [getKey_setKey_ne d k' k y hne]
      exact hsome
  | k' :: q1 :: qrest =>
    refine ⟨_, rfl, ?_⟩
    by_cases hne : k = k'
    · subst hne
      rw [getKey_map_modify_self d k (fun v => setPath v (q1 :: qrest) y)]
      cases hg : getKey d k with
      | none => rw [hg] at hsome; cases hsome
      | some w => rfl
    · rw [getKey_map_modify_ne d k' k (fun v => setPath v (q1 :: qrest) y) hne]
      exact hsome

theorem hasTopKey_applyWrites (ws : List (List String × Val)) (r : Val)
    (k : String) (h : hasTopKey r k) : hasTopKey (applyWrites r ws) k := by
  induction ws generalizing r with
  | nil => exact h
  | cons w tail ih => exact ih _ (hasTopKey_setPath r w.1 w.2 k h)

theorem applyWrites_top_comm (k : String) (x : Val) (ws : List (List String × Val)) :
    ∀ (r : Val), hasTopKey r k → (∀ w ∈ ws, w.1.head? ≠ some k) →
    setPath (applyWrites r ws) [k] x = applyWrites (setPath r [k] x) ws := by
  induction ws with
  | nil => intro r _ _; rfl
  | cons w tail ih =>
    intro r hk hws
    show setPath (applyWrites (setPath r w.1 w.2) tail) [k] x = _
    rw [ih _ (hasTopKey_setPath r w.1 w.2 k hk)
        (fun v hv => hws v (List.mem_cons_of_mem _ hv)),
      setPath_top_comm r w.1 w.2 k x hk (hws w (List.mem_cons_self _ _))]
    rfl

theorem setKey_setKey_same (d : List (String × Val)) (k : String) (v x : Val) :
    setKey (setKey d k v) k x = setKey d k x := by
  cases hk : getKey d k with
  | some w =>
    have hp : (getKey d k).isSome := by rw [hk]; rfl
    rw [setKey_of_present d k v hp,
      setKey_of_present _ k x (by
        rw [getKey_map_modify_self d k (fun _ => v), hk]; rfl),
      setKey_of_present d k x hp, List.map_map]
    have hfg : ((fun p : String × Val => if p.1 = k then (k, x) else p) ∘
        (fun p : String × Val => if p.1 = k then (k, v) else p)) =
        (fun p : String × Val => if p.1 = k then (k, x) else p) := by
      funext p
      by_cases h : p.1 = k <;> simp [Function.comp, h]
    rw [hfg]
  | none =>
    rw [setKey_of_absent d k v hk,
      setKey_of_present _ k x (by
        rw [getKey_append, hk]
        show (getKey [(k, v)] k).isSome = true
        rw [getKey_cons, if_pos rfl]
        rfl),
      setKey_of_absent d k x hk, List.map_append]
    congr 1
    · exact map_if_eq_self d k x (getKey_none_forall d k hk)
    · simp

theorem setPath_setPath_single (r : Val) (k : String) (v x : Val) :
    setPath (setPath r [k] v) [k] x = setPath r [k] x := by
  cases r with
  | vdict d =>
    show Val.vdict (setKey (setKey d k v) k x) = Val.vdict (setKey d k x)
    rw [setKey_setKey_same]
  | vnull => rfl
  | vstr s => rfl
  | vlist xs => rfl

theorem allergensWrites_head_ne (els : List String) (k : String)
    (hk : k ≠ "Allergens") :
    ∀ w ∈ allergensWrites els, w.1.head? ≠ some k := by
  intro w hw he
  rw [(mem_allergensWrites els w hw).1] at he
  exact hk (Option.some.inj he).symm

theorem nameWrites_head_ne (els : List String) (k : String)
    (hk : k ≠ "Name") :
    ∀ w ∈ nameWrites els, w.1.head? ≠ some k := by
  intro w hw he
  rw [(mem_nameWrites els w hw).1] at he
  exact hk (Option.some.inj he).symm

/-- C1 (amended): the extraction blocks are attempted independently, so
a page missing the ingredients class leaves `Ingredients = []` and every
other field exactly as it would be on the full page: the result for a
soup with no `labelingredientsvalue` element is the full result with the
`Ingredients` entry reset to the empty list.  (Within a failing block,
however, fields assigned before the failing statement keep their
extracted values — only the fields not yet assigned stay at their
defaults; see the counterexample to the original claim.) -/
theorem scraper_ingredients_isolation (s : Soup) :
    getPath (get_info (some { s with ingredientsEls := [] })) ["Ingredients"]
      = some (Val.vlist []) ∧
    get_info (some { s with ingredientsEls := [] }) =
      setPath (get_info (some s)) ["Ingredients"] (Val.vlist []) := by
  have hal := allergensWrites_head_ne s.allergensEls "Ingredients" (by decide)
  have hnm := nameWrites_head_ne s.h2Els "Ingredients" (by decide)
  have h2 := stepsWrites_head_ne s.facts2Els facts2Steps "Ingredients" (by decide)
  have h4 := stepsWrites_head_ne s.facts4Els facts4Steps "Ingredients" (by decide)
  have hv := vitaminWrites_head_ne s.liSpanEls "Ingredients" (by decide)
  have hS' : get_info (some { s with ingredientsEls := [] }) =
      applyWrites (applyWrites (applyWrites (applyWrites (applyWrites
        EMPTY_MENU_SCHEMA (allergensWrites s.allergensEls)) (nameWrites s.h2Els))
        (stepsWrites s.facts2Els facts2Steps)) (stepsWrites s.facts4Els facts4Steps))
        (vitaminWrites s.liSpanEls vitaminTargets) := by
    rw [get_info_decompose { s with ingredientsEls := [] }]
    rfl
  constructor
  · rw [hS', getPath_applyWrites_ne_head _ _ _ _ hv,
      getPath_applyWrites_ne_head _ _ _ _ h4,
      getPath_applyWrites_ne_head _ _ _ _ h2,
      getPath_applyWrites_ne_head _ _ _ _ hnm,
      getPath_applyWrites_ne_head _ _ _ _ hal]
    rfl
  · have htk0 : hasTopKey EMPTY_MENU_SCHEMA "Ingredients" := ⟨_, rfl, rfl⟩
    have htk1 := hasTopKey_applyWrites (ingredientsWrites s.ingredientsEls) _ _ htk0
    have htk2 := hasTopKey_applyWrites (allergensWrites s.allergensEls) _ _ htk1
    have htk3 := hasTopKey_applyWrites (nameWrites s.h2Els) _ _ htk2
    have htk4 := hasTopKey_applyWrites (stepsWrites s.facts2Els facts2Steps) _ _ htk3
    have htk5 := hasTopKey_applyWrites (stepsWrites s.facts4Els facts4Steps) _ _ htk4
    have hing : setPath (applyWrites EMPTY_MENU_SCHEMA
        (ingredientsWrites s.ingredientsEls)) ["Ingredients"] (Val.vlist []) =
        EMPTY_MENU_SCHEMA := by
      cases h0 : s.ingredientsEls.get? 0 with
      | none =>
        rw [show ingredientsWrites s.ingredientsEls = [] from by
          unfold ingredientsWrites; rw [h0]]
        rfl
      | some txt =>
        rw [show ingredientsWrites s.ingredientsEls =
            [(["Ingredients"], Val.vlist
              (if ((pySplitComma txt).map
                  (fun f => Val.vstr (pyCapitalize (pyStrip f)))).isEmpty then []
               else (pySplitComma txt).map
                  (fun f => Val.vstr (pyCapitalize (pyStrip f)))))] from by
          unfold ingredientsWrites; rw [h0]]
        show setPath (setPath EMPTY_MENU_SCHEMA ["Ingredients"] _)
          ["Ingredients"] (Val.vlist []) = EMPTY_MENU_SCHEMA
        rw [setPath_setPath_single]
        rfl
    rw [hS', get_info_decompose s,
      applyWrites_top_comm "Ingredients" (Val.vlist []) _ _ htk5 hv,
      applyWrites_top_comm "Ingredients" (Val.vlist []) _ _ htk4 h4,
      applyWrites_top_comm "Ingredients" (Val.vlist []) _ _ htk3 h2,
      applyWrites_top_comm "Ingredients" (Val.vlist []) _ _ htk2 hnm,
      applyWrites_top_comm "Ingredients" (Val.vlist []) _ _ htk1 hal,
      hing]

/-- C1 (counterexample): with exactly one `facts2` element the
calories block raises at `elements[1]`, yet its earlier assignment to
`Serving Size` stands — the failing block's fields do not all remain at
their empty-sentinel defaults. -/
theorem scraper_group_partial_counterexample :
    ({ ingredientsEls := [], allergensEls := [], h2Els := [],
       facts2Els := ["Serving Size 4 oz"], facts4Els := [],
       liSpanEls := [] } : Soup).facts2Els.get? 1 = none ∧
    getPath (get_info (some
      { ingredientsEls := [], allergensEls := [], h2Els := [],
        facts2Els := ["Serving Size 4 oz"], facts4Els := [],
        liSpanEls := [] })) ["Serving Size"] = some (Val.vstr "4 oz") ∧
    Val.vstr "4 oz" ≠ Val.vstr "" :=
  ⟨rfl, rfl, fun h => absurd (Val.vstr.inj h) (by decide)⟩

theorem noNullsEntries_map_modify (k : String) (f : Val → Val)
    (d : List (String × Val)) (hd : noNullsEntries d = true)
    (hf : ∀ v, noNulls v = true → noNulls (f v) = true) :
    noNullsEntries (d.map (fun p => if p.1 = k then (k, f p.2) else p)) = true := by
  induction d with
  | nil => rfl
  | cons q rest ih =>
    rw [show noNullsEntries (q :: rest) = (noNulls q.2 && noNullsEntries rest) from rfl,
      Bool.and_eq_true] at hd
    by_cases hq : q.1 = k
    · rw [List.map_cons, if_pos hq,
        show noNullsEntries ((k, f q.2) :: _) = (noNulls (f q.2) && _) from rfl,
        Bool.and_eq_true]
      exact ⟨hf q.2 hd.1, ih hd.2⟩
    · rw [List.map_cons, if_neg hq,
        show noNullsEntries (q :: _) = (noNulls q.2 && _) from rfl,
        Bool.and_eq_true]
      exact ⟨hd.1, ih hd.2⟩

theorem noNullsEntries_append (d1 d2 : List (String × Val))
    (h1 : noNullsEntries d1 = true) (h2 : noNullsEntries d2 = true) :
    noNullsEntries (d1 ++ d2) = true := by
  induction d1 with
  | nil => exact h2
  | cons q rest ih =>
    rw [show noNullsEntries (q :: rest) = (noNulls q.2 && noNullsEntries rest) from rfl,
      Bool.and_eq_true] at h1
    rw [List.cons_append,
      show noNullsEntries (q :: (rest ++ d2)) = (noNulls q.2 && noNullsEntries (rest ++ d2)) from rfl,
      Bool.and_eq_true]
    exact ⟨h1.1, ih h1.2⟩

theorem noNulls_setKey (d : List (String × Val)) (k : String) (x : Val)
    (hd : noNullsEntries d = true) (hx : noNulls x = true) :
    noNullsEntries (setKey d k x) = true := by
  unfold setKey
  split
  · exact noNullsEntries_map_modify k (fun _ => x) d hd (fun _ _ => hx)
  · exact noNullsEntries_append d [(k, x)] hd (by
      rw [show noNullsEntries [(k, x)] = (noNulls x && true) from rfl, Bool.and_eq_true]
      exact ⟨hx, rfl⟩)

theorem noNulls_setPath (q : List String) : ∀ (r x : Val),
    noNulls r = true → noNulls x = true → noNulls (setPath r q x) = true := by
  induction q with
  | nil => intro r x hr _; exact hr
  | cons k rest ih =>
    intro r x hr hx
    cases rest with
    | nil =>
      cases r with
      | vdict d =>
        show noNullsEntries (setKey d k x) = true
        exact noNulls_setKey d k x hr hx
      | vnull => exact hr
      | vstr s => exact hr
      | vlist xs => exact hr
    | cons q1 qrest =>
      cases r with
      | vdict d =>
        show noNullsEntries (d.map (fun p =>
          if p.1 = k then (k, setPath p.2 (q1 :: qrest) x) else p)) = true
        exact noNullsEntries_map_modify k (fun v => setPath v (q1 :: qrest) x) d hr
          (fun v hv => ih v x hv hx)
      | vnull => exact hr
      | vstr s => exact hr
      | vlist xs => exact hr

theorem noNulls_applyWrites (ws : List (List String × Val)) : ∀ (r : Val),
    noNulls r = true → (∀ w ∈ ws, noNulls w.2 = true) →
    noNulls (applyWrites r ws) = true := by
  induction ws with
  | nil => intro r hr _; exact hr
  | cons w tail ih =>
    intro r hr hws
    exact ih _ (noNulls_setPath w.1 r w.2 hr (hws w (List.mem_cons_self _ _)))
      (fun v hv => hws v (List.mem_cons_of_mem _ hv))

theorem noNullsList_of_all (xs : List Val)
    (h : ∀ x ∈ xs, ∃ s, x = Val.vstr s) : noNullsList xs = true := by
  induction xs with
  | nil => rfl
  | cons a as ih =>
    rw [show noNullsList (a :: as) = (noNulls a && noNullsList as) from rfl,
      Bool.and_eq_true]
    obtain ⟨s, hs⟩ := h a (List.mem_cons_self _ _)
    exact ⟨by rw [hs]; rfl, ih (fun x hx => h x (List.mem_cons_of_mem _ hx))⟩

theorem noNulls_of_leafStrVal (v : Val) (h : leafStrVal v) : noNulls v = true := by
  rcases h with ⟨s, rfl⟩ | ⟨xs, rfl, hxs⟩
  · rfl
  · exact noNullsList_of_all xs hxs

theorem allWrites_noNulls (s : Soup) : ∀ w ∈ allWrites s, noNulls w.2 = true := by
  intro w hw
  unfold allWrites at hw
  rcases List.mem_append.mp hw with hw | hw
  · rcases List.mem_append.mp hw with hw | hw
    · rcases List.mem_append.mp hw with hw | hw
      · rcases List.mem_append.mp hw with hw | hw
        · rcases List.mem_append.mp hw with hw | hw
          · exact noNulls_of_leafStrVal _ (mem_ingredientsWrites _ _ hw).2
          · exact noNulls_of_leafStrVal _ (mem_allergensWrites _ _ hw).2
        · exact noNulls_of_leafStrVal _ (mem_nameWrites _ _ hw).2
      · obtain ⟨s', hs'⟩ := (mem_stepsWrites _ _ _ hw).2
        rw [hs']
        rfl
    · obtain ⟨s', hs'⟩ := (mem_stepsWrites _ _ _ hw).2
      rw [hs']
      rfl
  · obtain ⟨s', hs'⟩ := (mem_vitaminWrites _ _ _ hw).2
    rw [hs']
    rfl

/-- C2 (amended, the part that holds): the scraper's result never
contains Python `None` — every field is an (empty or extracted) string
or list at every nesting level, for every input.  (The decoders do
produce `None`: see the counterexample.) -/
theorem scraper_no_nulls (soup : Option Soup) : noNulls (get_info soup) = true := by
  cases soup with
  | none => rfl
  | some s =>
    exact noNulls_applyWrites (allWrites s) EMPTY_MENU_SCHEMA rfl (allWrites_noNulls s)

theorem pathLeaf_node_single (es : List (String × Shape)) (k : String) :
    pathLeaf (Shape.node es) [k] =
      (match es.find? (fun p => p.1 = k) with
       | some (_, Shape.leaf) => true
       | _ => false) := rfl

theorem pathLeaf_node_cons (es : List (String × Shape)) (k q1 : String)
    (qrest : List String) :
    pathLeaf (Shape.node es) (k :: q1 :: qrest) =
      (match es.find? (fun p => p.1 = k) with
       | some (_, sh) => pathLeaf sh (q1 :: qrest)
       | none => false) := rfl

theorem conformsEntries_keys : ∀ (d : List (String × Val))
    (es : List (String × Shape)), ConformsEntries d es →
    d.map Prod.fst = es.map Prod.fst := by
  intro d
  induction d with
  | nil =>
    intro es h
    cases h
    rfl
  | cons q rest ih =>
    intro es h
    cases h with
    | cons k v sh rest1 rest2 hv hrest =>
      simp only [List.map_cons]
      rw [ih rest2 hrest]

theorem map_keys_modify (d : List (String × Val)) (k : String)
    (f : String × Val → Val) :
    (d.map (fun p => if p.1 = k then (k, f p) else p)).map Prod.fst =
      d.map Prod.fst := by
  induction d with
  | nil => rfl
  | cons q rest ih =>
    by_cases hq : q.1 = k
    · simp only [List.map_cons, if_pos hq, ih]
      rw [hq]
    · simp only [List.map_cons, if_neg hq, ih]

theorem getKey_isSome_of_mem_keys (d : List (String × Val)) (k : String)
    (h : k ∈ d.map Prod.fst) : (getKey d k).isSome := by
  induction d with
  | nil => cases h
  | cons q rest ih =>
    rw [getKey_cons]
    by_cases hq : q.1 = k
    · rw [if_pos hq]; rfl
    · rw [if_neg hq]
      rcases List.mem_cons.mp h with h | h
      · exact absurd h.symm hq
      · exact ih h

theorem map_if_eq_self_f (d : List (String × Val)) (k : String)
    (f : String × Val → Val) (h : ∀ p ∈ d, p.1 ≠ k) :
    d.map (fun p => if p.1 = k then (k, f p) else p) = d := by
  induction d with
  | nil => rfl
  | cons q rest ih =>
    rw [List.map_cons, if_neg (h q (List.mem_cons_self _ _)),
      ih (fun p hp => h p (List.mem_cons_of_mem _ hp))]

theorem conformsEntries_modify (k : String) (f : Val → Val) :
    ∀ (d : List (String × Val)) (es : List (String × Shape)) (shk : Shape),
    ConformsEntries d es →
    (es.map Prod.fst).Nodup →
    es.find? (fun p => p.1 = k) = some (k, shk) →
    (∀ v, Conforms v shk → Conforms (f v) shk) →
    ConformsEntries (d.map (fun p => if p.1 = k then (k, f p.2) else p)) es := by
  intro d
  induction d with
  | nil =>
    intro es shk hce _ hfind _
    cases hce
    cases hfind
  | cons q rest ih =>
    intro es shk hce hnd hfind hf
    cases hce with
    | cons k' v sh rest1 rest2 hv hrest =>
      by_cases hk : k' = k
      · subst hk
        rw [List.find?_cons_of_pos _ (by simp)] at hfind
        have hsh : sh = shk := congrArg Prod.snd (Option.some.inj hfind)
        subst hsh
        rw [List.map_cons, if_pos rfl]
        have hnd' : (k' :: rest2.map Prod.fst).Nodup := by
          rw [List.map_cons] at hnd
          exact hnd
        have hrestid : ∀ p ∈ rest, p.1 ≠ k' := by
          intro p hp hpk
          have hknotin : k' ∉ rest2.map Prod.fst := (List.nodup_cons.mp hnd').1
          have hkeys := conformsEntries_keys rest rest2 hrest
          exact hknotin (hkeys ▸ (hpk ▸ List.mem_map_of_mem Prod.fst hp))
        rw [show (fun p : String × Val => if p.1 = k' then (k', f p.2) else p) =
            (fun p : String × Val =>
              if p.1 = k' then (k', (fun q : String × Val => f q.2) p) else p) from rfl,
          map_if_eq_self_f rest k' _ hrestid]
        exact ConformsEntries.cons _ _ _ _ _ (hf v hv) hrest
      · rw [List.find?_cons_of_neg _ (by simpa using hk)] at hfind
        rw [List.map_cons, if_neg hk]
        have hnd' : (k' :: rest2.map Prod.fst).Nodup := by
          rw [List.map_cons] at hnd
          exact hnd
        exact ConformsEntries.cons _ _ _ _ _ hv
          (ih rest2 shk hrest ((List.nodup_cons.mp hnd').2) hfind hf)

theorem conforms_setPath (q : List String) : ∀ (r : Val) (S : Shape) (x : Val),
    Conforms r S → pathLeaf S q = true → (∀ dd, x ≠ Val.vdict dd) →
    Conforms (setPath r q x) S := by
  induction q with
  | nil =>
    intro r S x _ hp _
    exact absurd hp (by cases S <;> exact fun h => Bool.noConfusion h)
  | cons k rest ih =>
    intro r S x hc hp hx
    cases rest with
    | nil =>
      cases hc with
      | leaf v h => exact absurd hp (fun h' => Bool.noConfusion h')
      | node d es hnd hce =>
        rw [pathLeaf_node_single] at hp
        have hfind : es.find? (fun p => p.1 = k) = some (k, Shape.leaf) := by
          cases hf : es.find? (fun p => p.1 = k) with
          | none =>
            rw [hf] at hp
            exact absurd hp (fun h' => Bool.noConfusion h')
          | some p =>
            obtain ⟨k0, sh0⟩ := p
            have hk0 : k0 = k := by simpa using List.find?_some hf
            cases sh0 with
            | leaf => rw [hk0]
            | node es' =>
              rw [hf] at hp
              exact absurd hp (fun h' => Bool.noConfusion h')
        have hmem : k ∈ d.map Prod.fst := by
          rw [conformsEntries_keys d es hce]
          exact List.mem_map_of_mem Prod.fst (List.mem_of_find?_eq_some hfind)
        show Conforms (Val.vdict (setKey d k x)) (Shape.node es)
        rw [setKey_of_present d k x (getKey_isSome_of_mem_keys d k hmem)]
        refine Conforms.node _ _ ?_ ?_
        · rw [show (fun p : String × Val => if p.1 = k then (k, x) else p) =
            (fun p : String × Val =>
              if p.1 = k then (k, (fun _ : String × Val => x) p) else p) from rfl,
            map_keys_modify]
          exact hnd
        · exact conformsEntries_modify k (fun _ => x) d es Shape.leaf hce
            (conformsEntries_keys d es hce ▸ hnd) hfind
            (fun v _ => Conforms.leaf x hx)
    | cons q1 qrest =>
      cases hc with
      | leaf v h => exact absurd hp (fun h' => Bool.noConfusion h')
      | node d es hnd hce =>
        rw [pathLeaf_node_cons] at hp
        cases hf : es.find? (fun p => p.1 = k) with
        | none =>
          rw [hf] at hp
          exact absurd hp (fun h' => Bool.noConfusion h')
        | some p =>
          obtain ⟨k0, sh0⟩ := p
          have hk0 : k0 = k := by simpa using List.find?_some hf
          have hf' : es.find? (fun p => p.1 = k) = some (k, sh0) := by
            rw [hk0] at hf
            exact hf
          rw [hf] at hp
          have hp' : pathLeaf sh0 (q1 :: qrest) = true := hp
          show Conforms (Val.vdict (d.map (fun p =>
            if p.1 = k then (k, setPath p.2 (q1 :: qrest) x) else p))) (Shape.node es)
          refine Conforms.node _ _ ?_ ?_
          · rw [show (fun p : String × Val =>
                if p.1 = k then (k, setPath p.2 (q1 :: qrest) x) else p) =
              (fun p : String × Val => if p.1 = k then
                (k, (fun q : String × Val => setPath q.2 (q1 :: qrest) x) p) else p) from rfl,
              map_keys_modify]
            exact hnd
          · exact conformsEntries_modify k (fun v => setPath v (q1 :: qrest) x)
              d es sh0 hce (conformsEntries_keys d es hce ▸ hnd) hf'
              (fun v hv => ih v sh0 x hv hp' hx)

theorem conforms_applyWrites (ws : List (List String × Val)) (S : Shape) :
    ∀ (r : Val), Conforms r S →
    (∀ w ∈ ws, pathLeaf S w.1 = true ∧ ∀ dd, w.2 ≠ Val.vdict dd) →
    Conforms (applyWrites r ws) S := by
  induction ws with
  | nil => intro r hr _; exact hr
  | cons w tail ih =>
    intro r hr hws
    obtain ⟨hp, hx⟩ := hws w (List.mem_cons_self _ _)
    exact ih _ (conforms_setPath w.1 r S w.2 hr hp hx)
      (fun v hv => hws v (List.mem_cons_of_mem _ hv))

theorem conforms_schema : Conforms EMPTY_MENU_SCHEMA (shapeOf EMPTY_MENU_SCHEMA) := by
  repeat' first
    | exact ConformsEntries.nil
    | exact Conforms.leaf _ (fun dd h => Val.noConfusion h)
    | apply ConformsEntries.cons
    | apply Conforms.node _ _ (by decide)

theorem leafStrVal_not_vdict (v : Val) (h : leafStrVal v) :
    ∀ dd, v ≠ Val.vdict dd := by
  rcases h with ⟨s, rfl⟩ | ⟨xs, rfl, _⟩ <;> exact fun dd h => Val.noConfusion h

theorem allWrites_shape_ok (s : Soup) : ∀ w ∈ allWrites s,
    pathLeaf (shapeOf EMPTY_MENU_SCHEMA) w.1 = true ∧
    ∀ dd, w.2 ≠ Val.vdict dd := by
  intro w hw
  unfold allWrites at hw
  rcases List.mem_append.mp hw with hw | hw
  · rcases List.mem_append.mp hw with hw | hw
    · rcases List.mem_append.mp hw with hw | hw
      · rcases List.mem_append.mp hw with hw | hw
        · rcases List.mem_append.mp hw with hw | hw
          · exact ⟨by rw [(mem_ingredientsWrites _ _ hw).1]; decide,
              leafStrVal_not_vdict _ (mem_ingredientsWrites _ _ hw).2⟩
          · exact ⟨by rw [(mem_allergensWrites _ _ hw).1]; decide,
              leafStrVal_not_vdict _ (mem_allergensWrites _ _ hw).2⟩
        · exact ⟨by rw [(mem_nameWrites _ _ hw).1]; decide,
            leafStrVal_not_vdict _ (mem_nameWrites _ _ hw).2⟩
      · obtain ⟨hp, s', hs'⟩ := mem_stepsWrites _ _ _ hw
        refine ⟨?_, fun dd hh => by rw [hs'] at hh; exact Val.noConfusion hh⟩
        exact (by decide : ∀ p ∈ facts2Steps.map ScrapeStep.path,
          pathLeaf (shapeOf EMPTY_MENU_SCHEMA) p = true) _ hp
    · obtain ⟨hp, s', hs'⟩ := mem_stepsWrites _ _ _ hw
      refine ⟨?_, fun dd hh => by rw [hs'] at hh; exact Val.noConfusion hh⟩
      exact (by decide : ∀ p ∈ facts4Steps.map ScrapeStep.path,
        pathLeaf (shapeOf EMPTY_MENU_SCHEMA) p = true) _ hp
  · obtain ⟨hp, s', hs'⟩ := mem_vitaminWrites _ _ _ hw
    refine ⟨?_, fun dd hh => by rw [hs'] at hh; exact Val.noConfusion hh⟩
    exact (by decide : ∀ p ∈ vitaminTargets.map Prod.snd,
      pathLeaf (shapeOf EMPTY_MENU_SCHEMA) p = true) _ hp

/-- C10: `get_info` is total — for `None` or a non-`BeautifulSoup`
argument as well as for every parsed document it returns a dict whose
nested key structure is exactly that of `EMPTY_MENU_SCHEMA`: same keys,
same order, no key added, removed, or left unset, with every leaf a
non-dict value.  The schema template itself is never mutated (the deep
copy is modelled by value semantics), so successive calls are
independent. -/
theorem get_info_shape (soup : Option Soup) :
    Conforms (get_info soup) (shapeOf EMPTY_MENU_SCHEMA) := by
  cases soup with
  | none => exact conforms_schema
  | some s =>
    exact conforms_applyWrites (allWrites s) _ EMPTY_MENU_SCHEMA
      conforms_schema (allWrites_shape_ok s)

end HoagieMeal
